import Mathlib

/-!
# Monitor-log: the tail → parse → monitor pipeline of `log_process.go`

A shallow embedding of `ReadFromFile.Read`, `LogProcess.Process` and `Monitor.start`
together with the parts of the Go standard library they call (`regexp`, `time.Parse`,
`strings.Split`, `net/url`, `strconv`), followed by theorems about them.

Go strings and byte slices are byte sequences; a byte is a natural number below 256.
-/

namespace MonitorLog

/-! ## Byte strings -/

/-- A Go `string` or `[]byte`: its bytes in order. -/
abbrev Bytes := List Nat

/-- The bytes of an ASCII literal (one byte per character, the character's code). -/
def ascii (s : String) : Bytes := s.data.map Char.toNat

/-! ## Regular expressions (package `regexp`, leftmost-first semantics)

The pattern of `Process` only repeats single-character classes, so the syntax tree has
classes, class repetition, concatenation and capture groups. Matching is the backtracking
search whose first success is the leftmost-first match that `regexp` returns: at each
start offset from the left, alternatives are tried in priority order (a greedy
repetition prefers more characters, a lazy one fewer).

The pattern's classes are ASCII sets or complements of ASCII sets, and every complemented
repetition is delimited by ASCII literals, so matching byte by byte selects the same
substrings as matching rune by rune.
-/

/-- A character class: a list of inclusive byte ranges, possibly complemented. -/
structure Cls where
  negated : Bool
  ranges : List (Nat × Nat)

/-- Membership of a byte in a class. -/
def Cls.test (c : Cls) (b : Nat) : Bool :=
  c.negated != c.ranges.any (fun r => decide (r.1 ≤ b) && decide (b ≤ r.2))

/-- Regular expression syntax. -/
inductive Re where
  | one (c : Cls)
  | star (greedy : Bool) (c : Cls)
  | cat (a b : Re)
  | cap (i : Nat) (a : Re)

/-- The regexp `c+` (greedy). -/
def Re.plus (c : Cls) : Re := .cat (.one c) (.star true c)

/-- The regexp `c{3}`. -/
def Re.three (c : Cls) : Re := .cat (.one c) (.cat (.one c) (.one c))

/-- Concatenation of a list of regexps. -/
def Re.seq : List Re → Re
  | [] => .star true ⟨false, []⟩
  | [a] => a
  | a :: rest => .cat a (Re.seq rest)

/-- Greedy `c*` followed by the continuation `k`: longest run first. -/
def starGreedy {α : Type} (c : Cls) : Bytes → (Bytes → Option α) → Option α
  | [], k => k []
  | b :: bs, k =>
    if c.test b then
      match starGreedy c bs k with
      | some r => some r
      | none => k (b :: bs)
    else k (b :: bs)

/-- Lazy `c*?` followed by the continuation `k`: shortest run first. -/
def starLazy {α : Type} (c : Cls) : Bytes → (Bytes → Option α) → Option α
  | [], k => k []
  | b :: bs, k =>
    match k (b :: bs) with
    | some r => some r
    | none => if c.test b then starLazy c bs k else none

/-- Capture slots: slot `i` holds the text of group `i`. -/
abbrev Caps := List Bytes

/-- The backtracking matcher: match `r` at the start of the input, then run the
continuation on the remaining input and the captures so far. -/
def Re.run : Re → Bytes → Caps → (Bytes → Caps → Option Caps) → Option Caps
  | .one _, [], _, _ => none
  | .one c, b :: bs, caps, k => if c.test b then k bs caps else none
  | .star true c, s, caps, k => starGreedy c s (fun rest => k rest caps)
  | .star false c, s, caps, k => starLazy c s (fun rest => k rest caps)
  | .cat a b, s, caps, k => a.run s caps (fun rest caps1 => b.run rest caps1 k)
  | .cap i a, s, caps, k =>
    a.run s caps (fun rest caps1 => k rest (caps1.set i (s.take (s.length - rest.length))))

/-- Match `r` (with `n` capture groups, group 0 being the whole match) starting exactly
at the head of the input. -/
def Re.matchAt (r : Re) (n : Nat) (s : Bytes) : Option Caps :=
  (Re.cap 0 r).run s (List.replicate (n + 1) []) (fun _ caps => some caps)

/-- Unanchored search: the first start offset, from the left, at which `r` matches. -/
def Re.search (r : Re) (n : Nat) : Bytes → Option Caps
  | [] => r.matchAt n []
  | b :: bs =>
    match r.matchAt n (b :: bs) with
    | some caps => some caps
    | none => Re.search r n bs

/-- `(*Regexp).FindStringSubmatch`: the texts of the leftmost match and of its groups, or
the nil slice when there is no match. -/
def FindStringSubmatch (r : Re) (n : Nat) (s : Bytes) : List Bytes :=
  (r.search n s).getD []

/-- The texts that `r` matches, with the effect of a match on the capture slots. -/
def Re.Sem : Re → Bytes → Caps → Caps → Prop
  | .one c, w, caps, caps' => (∃ b, w = [b] ∧ c.test b = true) ∧ caps' = caps
  | .star _ c, w, caps, caps' => (∀ b ∈ w, c.test b = true) ∧ caps' = caps
  | .cat a b, w, caps, caps' =>
    ∃ w1 w2 mid, w = w1 ++ w2 ∧ Re.Sem a w1 caps mid ∧ Re.Sem b w2 mid caps'
  | .cap i a, w, caps, caps' => ∃ mid, Re.Sem a w caps mid ∧ caps' = mid.set i w

/-- The texts that `r` matches from their first to their last byte. -/
def Re.Matches : Re → Bytes → Prop
  | .one c, w => ∃ b, w = [b] ∧ c.test b = true
  | .star _ c, w => ∀ b ∈ w, c.test b = true
  | .cat a b, w => ∃ w1 w2, w = w1 ++ w2 ∧ Re.Matches a w1 ∧ Re.Matches b w2
  | .cap _ a, w => Re.Matches a w

/-- The capture groups of `r`, index and sub-pattern, in the order a match fills them. -/
def Re.groups : Re → List (Nat × Re)
  | .one _ => []
  | .star _ _ => []
  | .cat a b => a.groups ++ b.groups
  | .cap i a => a.groups ++ [(i, a)]

/-- Store texts in capture slots, in order. -/
def fill (caps : Caps) (assign : List (Nat × Bytes)) : Caps :=
  assign.foldl (fun c p => c.set p.1 p.2) caps

/-- A non-empty text whose bytes all lie in the class `c`: what `c+` matches. -/
def ClassText (c : Cls) (t : Bytes) : Prop := t ≠ [] ∧ ∀ b ∈ t, c.test b = true

/-! ### The pattern of `Process` -/

/-- `\d` -/
def clsDigit : Cls := ⟨false, [(48, 57)]⟩
/-- `\s`, which is `[\t\n\f\r ]` -/
def clsSpace : Cls := ⟨false, [(9, 10), (12, 13), (32, 32)]⟩
/-- `[\d\.]` -/
def clsDigitDot : Cls := ⟨false, [(48, 57), (46, 46)]⟩
/-- `[^ \[]` -/
def clsNotSpaceBracket : Cls := ⟨true, [(32, 32), (91, 91)]⟩
/-- `[^\]]` -/
def clsNotClose : Cls := ⟨true, [(93, 93)]⟩
/-- `[a-z]` -/
def clsLower : Cls := ⟨false, [(97, 122)]⟩
/-- `[^"]` -/
def clsNotQuote : Cls := ⟨true, [(34, 34)]⟩
/-- `.`, any character but newline -/
def clsDot : Cls := ⟨true, [(10, 10)]⟩
/-- `[\d\.-]` -/
def clsNum : Cls := ⟨false, [(48, 57), (46, 46), (45, 45)]⟩
/-- A literal byte. -/
def Re.lit (b : Nat) : Re := .one ⟨false, [(b, b)]⟩
/-- `\s+` -/
def reSpaces : Re := Re.plus clsSpace

/-- The pattern compiled in `Process`:
`([\d\.]+)\s+([^ \[]+)\s+([^ \[]+)\s+\[([^\]]+)\]\s+([a-z]+)\s+\"([^"]+)\"\s+(\d{3})\s+(\d+)\s+\"([^"]+)\"\s+\"(.*?)\"\s+\"([\d\.-]+)\"\s+([\d\.-]+)\s+([\d\.-]+)` -/
def logPattern : Re :=
  Re.seq [
    .cap 1 (Re.plus clsDigitDot), reSpaces,
    .cap 2 (Re.plus clsNotSpaceBracket), reSpaces,
    .cap 3 (Re.plus clsNotSpaceBracket), reSpaces,
    Re.lit 91, .cap 4 (Re.plus clsNotClose), Re.lit 93, reSpaces,
    .cap 5 (Re.plus clsLower), reSpaces,
    Re.lit 34, .cap 6 (Re.plus clsNotQuote), Re.lit 34, reSpaces,
    .cap 7 (Re.three clsDigit), reSpaces,
    .cap 8 (Re.plus clsDigit), reSpaces,
    Re.lit 34, .cap 9 (Re.plus clsNotQuote), Re.lit 34, reSpaces,
    Re.lit 34, .cap 10 (.star false clsDot), Re.lit 34, reSpaces,
    Re.lit 34, .cap 11 (Re.plus clsNum), Re.lit 34, reSpaces,
    .cap 12 (Re.plus clsNum), reSpaces,
    .cap 13 (Re.plus clsNum)]

/-- The pattern has 13 capture groups. -/
def logGroups : Nat := 13

/-- What a successful `FindStringSubmatch` of the pattern returns for the line `v`: the
text `w` of a portion of `v` that the pattern matches, followed by the texts of the 13
groups, each made of the bytes its class allows. -/
def Submatch (v : Bytes) (ret : List Bytes) : Prop :=
  ∃ pre w post g1 g2 g3 g4 g5 g6 g7 g8 g9 g10 g11 g12 g13,
    v = pre ++ w ++ post ∧ Re.Matches logPattern w ∧
    ret = [w, g1, g2, g3, g4, g5, g6, g7, g8, g9, g10, g11, g12, g13] ∧
    ClassText clsDigitDot g1 ∧ ClassText clsNotSpaceBracket g2 ∧
    ClassText clsNotSpaceBracket g3 ∧ ClassText clsNotClose g4 ∧ ClassText clsLower g5 ∧
    ClassText clsNotQuote g6 ∧ (g7.length = 3 ∧ ∀ b ∈ g7, clsDigit.test b = true) ∧
    ClassText clsDigit g8 ∧ ClassText clsNotQuote g9 ∧ (∀ b ∈ g10, clsDot.test b = true) ∧
    ClassText clsNum g11 ∧ ClassText clsNum g12 ∧ ClassText clsNum g13

/-! ## Package `time`: `ParseInLocation` with the layout of `Process` -/

/-- The instant `time.Date(year, month, day, hour, min, sec, nsec, loc)`, kept as its
wall-clock fields; `loc` is the location that `Process` loads (Asia/Shanghai, taken to be
available on the host). -/
structure Time where
  year : Nat
  month : Nat
  day : Nat
  hour : Nat
  min : Nat
  sec : Nat
  nsec : Nat
deriving DecidableEq, Repr

/-- `isDigit(s, 0)` on the head byte. -/
def isDigitByte (b : Nat) : Bool := decide (48 ≤ b) && decide (b ≤ 57)

/-- `getnum(s, fixed)`: a one- or two-digit number (two digits required when `fixed`). -/
def getnum : Bytes → Bool → Option (Nat × Bytes)
  | [], _ => none
  | [a], fixed => if isDigitByte a then (if fixed then none else some (a - 48, [])) else none
  | a :: b :: rest, fixed =>
    if isDigitByte a then
      if isDigitByte b then some ((a - 48) * 10 + (b - 48), rest)
      else if fixed then none else some (a - 48, b :: rest)
    else none

/-- `cutspace`: drop leading spaces. -/
def cutspace : Bytes → Bytes
  | [] => []
  | b :: bs => if b = 32 then cutspace bs else b :: bs

/-- `skip(value, prefix)`: consume the literal layout text `pre` from `value`; a space in
the layout stands for a run of spaces (or the end of the value). The second argument
bounds the number of iterations (each one shortens the layout text). -/
def skipFuel : Nat → Bytes → Bytes → Option Bytes
  | _, value, [] => some value
  | 0, _, _ :: _ => none
  | fuel + 1, value, p :: ps =>
    if p = 32 then
      match value with
      | [] => skipFuel fuel (cutspace value) (cutspace (p :: ps))
      | v :: _ => if v ≠ 32 then none else skipFuel fuel (cutspace value) (cutspace (p :: ps))
    else
      match value with
      | [] => none
      | v :: vs => if v ≠ p then none else skipFuel fuel vs ps

/-- `skip(value, prefix)` -/
def skip (value pre : Bytes) : Option Bytes := skipFuel pre.length value pre

/-- `shortMonthNames` -/
def shortMonthNames : List Bytes :=
  [ascii "Jan", ascii "Feb", ascii "Mar", ascii "Apr", ascii "May", ascii "Jun",
   ascii "Jul", ascii "Aug", ascii "Sep", ascii "Oct", ascii "Nov", ascii "Dec"]

/-- One byte of `match(s1, s2)`: equal, or equal letters ignoring ASCII case. -/
def matchByte (c1 c2 : Nat) : Bool :=
  if c1 = c2 then true
  else decide ((c1 ||| 32) = (c2 ||| 32)) && decide (97 ≤ (c1 ||| 32)) && decide ((c1 ||| 32) ≤ 122)

/-- `match(s1, s2)` for `s1` and `s2` of the same length. -/
def matchFold : Bytes → Bytes → Bool
  | [], _ => true
  | _ :: _, [] => false
  | a :: as, b :: bs => matchByte a b && matchFold as bs

/-- `lookup(tab, val)`: index of the first table entry that is a prefix of `val`
ignoring case, and the rest of `val`. -/
def lookup : List Bytes → Bytes → Nat → Option (Nat × Bytes)
  | [], _, _ => none
  | v :: tab, val, i =>
    if v.length ≤ val.length && matchFold (val.take v.length) v then some (i, val.drop v.length)
    else lookup tab val (i + 1)

/-- `isLeap(year)` -/
def isLeap (year : Nat) : Bool := year % 4 = 0 && (year % 100 ≠ 0 || year % 400 = 0)

/-- `daysIn(m, year)` -/
def daysIn (m year : Nat) : Nat :=
  if m = 2 && isLeap year then 29
  else [31, 28, 31, 30, 31, 30, 31, 31, 30, 31, 30, 31].getD (m - 1) 0

/-- The value of a run of decimal digits. -/
def digitsVal (ds : Bytes) : Nat := ds.foldl (fun n d => n * 10 + (d - 48)) 0

/-- The fractional second that `Parse` accepts after the seconds field although the layout
has none: a period or comma and at least one digit. Returns the nanoseconds
(`parseNanoseconds`, which reads at most nine digits) and the rest of the value. -/
def fracSecond : Bytes → Nat × Bytes
  | c :: d :: rest =>
    if (c = 46 || c = 44) && isDigitByte d then
      let ds := (d :: rest).takeWhile isDigitByte
      let kept := ds.take 9
      (digitsVal kept * 10 ^ (9 - kept.length), (d :: rest).dropWhile isDigitByte)
    else (0, c :: d :: rest)
  | value => (0, value)

/-- The layout chunks `02` `/` `Jan` `/` `2006` of `Parse`: a two-digit day, a month name
of `shortMonthNames` in any case, four year digits. Returns day, month, year and the unread
rest of the value. -/
def parseDateChunks (value : Bytes) : Option (Nat × Nat × Nat × Bytes) :=
  match getnum value true with
  | none => none
  | some (day, value) =>
    match skip value [47] with
    | none => none
    | some value =>
      match lookup shortMonthNames value 0 with
      | none => none
      | some (month0, value) =>
        match skip value [47] with
        | none => none
        | some value =>
          if value.length < 4 ∨ !(value.take 4).all isDigitByte then none
          else some (day, month0 + 1, digitsVal (value.take 4), value.drop 4)

/-- A layout chunk `:04` or `:05` of `Parse`: a colon and a two-digit number below 60. -/
def parseSixtieth (value : Bytes) : Option (Nat × Bytes) :=
  match skip value [58] with
  | none => none
  | some value =>
    match getnum value true with
    | none => none
    | some (n, value) => if 60 ≤ n then none else some (n, value)

/-- The layout chunks `:15` `:04` `:05` of `Parse` and the literal text ` +0000` that ends
the layout: an hour of one or two digits below 24, minute, second, an optional fractional
second, then spaces, `+0000` and the end of the value. Returns hour, minute, second and
nanoseconds. -/
def parseClockChunks (value : Bytes) : Option (Nat × Nat × Nat × Nat) :=
  match skip value [58] with
  | none => none
  | some value =>
    match getnum value false with
    | none => none
    | some (hour, value) =>
      if 24 ≤ hour then none
      else
        match parseSixtieth value with
        | none => none
        | some (min, value) =>
          match parseSixtieth value with
          | none => none
          | some (sec, value) =>
            match skip (fracSecond value).2 (ascii " +0000") with
            | none => none
            | some tail => if tail ≠ [] then none else some (hour, min, sec, (fracSecond value).1)

/-- `time.ParseInLocation("02/Jan/2006:15:04:05 +0000", value, loc)`: the layout's elements
are `02`, `Jan`, `2006`, `15`, `04` and `05`; its tail ` +0000` holds no layout element and
is literal text. After the chunks are read the day is checked against the month's length.
`none` is a parse error. -/
def ParseInLocation (value : Bytes) : Option Time :=
  match parseDateChunks value with
  | none => none
  | some (day, month, year, rest) =>
    match parseClockChunks rest with
    | none => none
    | some (hour, min, sec, nsec) =>
      if day < 1 ∨ daysIn month year < day then none
      else some ⟨year, month, day, hour, min, sec, nsec⟩

/-! ## Package `strings` -/

/-- `strings.Split(s, sep)` for a one-byte separator: the pieces between separators. -/
def Split (s : Bytes) (sep : Nat) : List Bytes :=
  match s with
  | [] => [[]]
  | b :: bs =>
    if b = sep then [] :: Split bs sep
    else
      match Split bs sep with
      | [] => [[b]]
      | piece :: pieces => (b :: piece) :: pieces

/-- `strings.Cut(s, sep)` for a one-byte separator: the text before the first separator and
the text after it (the whole of `s` and nothing when there is none). -/
def cut (s : Bytes) (sep : Nat) : Bytes × Bytes :=
  (s.takeWhile (· ≠ sep), (s.dropWhile (· ≠ sep)).drop 1)

/-! ## Package `net/url`: `Parse` (Go 1.20), as far as `Path` and the error go -/

/-- `ishex` -/
def ishex (c : Nat) : Bool :=
  (decide (48 ≤ c) && decide (c ≤ 57)) || (decide (97 ≤ c) && decide (c ≤ 102)) ||
    (decide (65 ≤ c) && decide (c ≤ 70))

/-- `unhex` -/
def unhex (c : Nat) : Nat :=
  if 48 ≤ c ∧ c ≤ 57 then c - 48
  else if 97 ≤ c ∧ c ≤ 102 then c - 97 + 10
  else if 65 ≤ c ∧ c ≤ 70 then c - 65 + 10
  else 0

/-- The URL components that `unescape` is applied to during `Parse`. -/
inductive Encoding where
  | encodePath
  | encodeHost
  | encodeZone
  | encodeUserPassword
  | encodeFragment
deriving DecidableEq

/-- Whether the mode is `encodeHost` or `encodeZone`. -/
def Encoding.hostLike : Encoding → Bool
  | .encodeHost => true
  | .encodeZone => true
  | _ => false

/-- `shouldEscape(c, encodeHost)`: letters, digits, the sub-delimiters, `:[]<>"` and the
marks `-_.~` may appear in a host as they are. -/
def shouldEscapeHost (c : Nat) : Bool :=
  !((decide (97 ≤ c) && decide (c ≤ 122)) || (decide (65 ≤ c) && decide (c ≤ 90)) ||
    (decide (48 ≤ c) && decide (c ≤ 57)) ||
    (ascii "!$&'()*+,;=:[]<>\"").contains c || (ascii "-_.~").contains c)

/-- `unescape(s, mode)`: check and decode the `%XX` escapes; `none` is an `EscapeError` or
`InvalidHostError`. -/
def unescape (mode : Encoding) : Bytes → Option Bytes
  | [] => some []
  | c :: rest =>
    if c = 37 then
      match rest with
      | h1 :: h2 :: rest2 =>
        if !(ishex h1 && ishex h2) then none
        else if mode = .encodeHost && decide (unhex h1 < 8) && !(h1 = 50 && h2 = 53) then none
        else if mode = .encodeZone && !(h1 = 50 && h2 = 53) && (unhex h1 * 16 + unhex h2 ≠ 32)
            && shouldEscapeHost (unhex h1 * 16 + unhex h2) then none
        else (unescape mode rest2).map (fun t => (unhex h1 * 16 + unhex h2) :: t)
      | _ => none
    else if mode.hostLike && decide (c < 128) && shouldEscapeHost c then none
    else (unescape mode rest).map (fun t => c :: t)

/-- `getScheme`: the scheme and the rest after its colon; `none` is the error
"missing protocol scheme". The accumulator holds the bytes read so far, reversed. -/
def getSchemeLoop (rawURL : Bytes) : Bytes → Bytes → Option (Bytes × Bytes)
  | _, [] => some ([], rawURL)
  | acc, c :: rest =>
    if (97 ≤ c ∧ c ≤ 122) ∨ (65 ≤ c ∧ c ≤ 90) then getSchemeLoop rawURL (c :: acc) rest
    else if (48 ≤ c ∧ c ≤ 57) ∨ c = 43 ∨ c = 45 ∨ c = 46 then
      if acc = [] then some ([], rawURL) else getSchemeLoop rawURL (c :: acc) rest
    else if c = 58 then
      if acc = [] then none else some (acc.reverse, rest)
    else some ([], rawURL)

/-- `getScheme(rawURL)` -/
def getScheme (rawURL : Bytes) : Option (Bytes × Bytes) := getSchemeLoop rawURL [] rawURL

/-- `validOptionalPort` -/
def validOptionalPort : Bytes → Bool
  | [] => true
  | c :: rest => c = 58 && rest.all isDigitByte

/-- `strings.LastIndex(s, b)` for a one-byte `b`. -/
def lastIndexByte (s : Bytes) (b : Nat) : Option Nat :=
  match s.reverse.indexOf? b with
  | some j => some (s.length - 1 - j)
  | none => none

/-- `strings.Index(s, pat)` -/
def indexSub (pat : Bytes) : Bytes → Option Nat
  | [] => if pat = [] then some 0 else none
  | c :: rest =>
    if pat.isPrefixOf (c :: rest) then some 0 else (indexSub pat rest).map (· + 1)

/-- `parseHost`, as far as its error goes: `true` when the host is accepted. -/
def parseHostOk (host : Bytes) : Bool :=
  if host.head? = some 91 then
    match lastIndexByte host 93 with
    | none => false
    | some i =>
      if !validOptionalPort (host.drop (i + 1)) then false
      else
        match indexSub (ascii "%25") (host.take i) with
        | some zone =>
          (unescape .encodeHost (host.take zone)).isSome &&
          (unescape .encodeZone ((host.take i).drop zone)).isSome &&
          (unescape .encodeHost (host.drop i)).isSome
        | none => (unescape .encodeHost host).isSome
  else
    (match lastIndexByte host 58 with
      | some i => validOptionalPort (host.drop i)
      | none => true) &&
    (unescape .encodeHost host).isSome

/-- `validUserinfo` -/
def validUserinfo (s : Bytes) : Bool :=
  s.all (fun r =>
    (decide (65 ≤ r) && decide (r ≤ 90)) || (decide (97 ≤ r) && decide (r ≤ 122)) ||
    (decide (48 ≤ r) && decide (r ≤ 57)) || (ascii "-._:~!$&'()*+,;=%@").contains r)

/-- `parseAuthority`, as far as its error goes. -/
def parseAuthorityOk (authority : Bytes) : Bool :=
  match lastIndexByte authority 64 with
  | none => parseHostOk authority
  | some i =>
    parseHostOk (authority.drop (i + 1)) &&
    (let userinfo := authority.take i
     validUserinfo userinfo &&
     (if userinfo.contains 58 then
        (unescape .encodeUserPassword (cut userinfo 58).1).isSome &&
        (unescape .encodeUserPassword (cut userinfo 58).2).isSome
      else (unescape .encodeUserPassword userinfo).isSome))

/-- `stringContainsCTLByte` -/
def stringContainsCTLByte (s : Bytes) : Bool := s.any (fun b => decide (b < 32) || b = 127)

/-- `parse(rawURL, false)`: the `Path` of the parsed URL, or `none` for an error. -/
def parseNoFragment (rawURL : Bytes) : Option Bytes :=
  if stringContainsCTLByte rawURL then none
  else if rawURL = [42] then some [42]
  else
    match getScheme rawURL with
    | none => none
    | some (scheme, rest) =>
      let rest := (cut rest 63).1
      if rest.head? ≠ some 47 ∧ scheme ≠ [] then some []
      else if rest.head? ≠ some 47 ∧ ((cut rest 47).1).contains 58 then none
      else if (scheme ≠ [] ∨ ¬ (ascii "///").isPrefixOf rest) ∧ (ascii "//").isPrefixOf rest then
        let authority := (rest.drop 2).takeWhile (· ≠ 47)
        let rest := (rest.drop 2).dropWhile (· ≠ 47)
        if parseAuthorityOk authority then unescape .encodePath rest else none
      else unescape .encodePath rest

/-- `url.Parse(rawURL)` followed by `.Path`: the path of the parsed URL, or `none` when
`Parse` returns an error. -/
def urlParsePath (rawURL : Bytes) : Option Bytes :=
  match parseNoFragment (cut rawURL 35).1 with
  | none => none
  | some path =>
    if (unescape .encodeFragment (cut rawURL 35).2).isSome then some path else none

/-! ## Package `strconv` -/

/-- The errors of `strconv`: `ErrSyntax` and `ErrRange`. -/
inductive NumError where
  | ErrSyntax
  | ErrRange
deriving DecidableEq, Repr

/-- The loop of `strconv.ParseUint(s, 10, 64)`: accumulate decimal digits; a byte that is
not a decimal digit is a syntax error, a value above `2^64 - 1` a range error (reported as
soon as it is reached, with the value `2^64 - 1`). -/
def parseUintLoop : Bytes → Nat → Nat × Option NumError
  | [], n => (n, none)
  | c :: cs, n =>
    if ¬ (48 ≤ c ∧ c ≤ 57) then (0, some .ErrSyntax)
    else if (2 ^ 64 - 1) / 10 + 1 ≤ n then (2 ^ 64 - 1, some .ErrRange)
    else if 2 ^ 64 - 1 < n * 10 + (c - 48) then (2 ^ 64 - 1, some .ErrRange)
    else parseUintLoop cs (n * 10 + (c - 48))

/-- `strconv.ParseUint(s, 10, 64)` -/
def ParseUint (s : Bytes) : Nat × Option NumError :=
  if s = [] then (0, some .ErrSyntax) else parseUintLoop s 0

/-- `strconv.ParseInt(s, 10, 0)` with a 64-bit `int`: an out-of-range value is replaced by
the nearest of `2^63 - 1` and `-2^63`. -/
def ParseInt (s : Bytes) : Int × Option NumError :=
  match s with
  | [] => (0, some .ErrSyntax)
  | c :: cs =>
    let neg := decide (c = 45)
    let body := if c = 43 ∨ c = 45 then cs else c :: cs
    match ParseUint body with
    | (_, some .ErrSyntax) => (0, some .ErrSyntax)
    | (un, _) =>
      if !neg && decide (2 ^ 63 ≤ un) then (2 ^ 63 - 1, some .ErrRange)
      else if neg && decide (2 ^ 63 < un) then (-(2 ^ 63), some .ErrRange)
      else (if neg then -(un : Int) else (un : Int), none)

/-- The fast path of `strconv.Atoi` for texts of 1 to 18 bytes. -/
def atoiFast (s : Bytes) : Int × Option NumError :=
  match s with
  | [] => (0, some .ErrSyntax)
  | c :: cs =>
    let body := if c = 45 ∨ c = 43 then cs else c :: cs
    if body = [] then (0, some .ErrSyntax)
    else if !body.all isDigitByte then (0, some .ErrSyntax)
    else (if c = 45 then -(digitsVal body : Int) else (digitsVal body : Int), none)

/-- `strconv.Atoi(s)` on a platform with a 64-bit `int`. -/
def Atoi (s : Bytes) : Int × Option NumError :=
  if 0 < s.length ∧ s.length < 19 then atoiFast s else ParseInt s

/-- A `float64` value: a finite value given by its sign bit and its magnitude (a rational
of the form `m * 2^e` with `m < 2^53` and `-1074 ≤ e ≤ 971`), an infinity, or NaN. -/
inductive F64 where
  | finite (neg : Bool) (mag : ℚ)
  | inf (neg : Bool)
  | nan
deriving DecidableEq

/-- The integer nearest to `n / d`, ties going to the even one. -/
def roundHalfEven (n d : Nat) : Nat :=
  if 2 * (n % d) < d then n / d
  else if d < 2 * (n % d) then n / d + 1
  else if (n / d) % 2 = 0 then n / d
  else n / d + 1

/-- Halving loop for `ilog2`; the first argument bounds the number of iterations. -/
def ilog2Loop : Nat → Nat → Nat
  | 0, _ => 0
  | fuel + 1, n => if n < 2 then 0 else ilog2Loop fuel (n / 2) + 1

/-- The integer `k` with `2^k ≤ n < 2^(k+1)`, for positive `n`. -/
def ilog2 (n : Nat) : Nat := ilog2Loop n n

/-- The integer `e` with `2^e ≤ n / d < 2^(e+1)`, for positive `n` and `d`. -/
def floorLog2 (n d : Nat) : Int :=
  let e0 : Int := (ilog2 n : Int) - (ilog2 d : Int)
  if 0 ≤ e0 then (if d * 2 ^ e0.toNat ≤ n then e0 else e0 - 1)
  else (if d ≤ n * 2 ^ (-e0).toNat then e0 else e0 - 1)

/-- IEEE 754 round-to-nearest-even of the magnitude `|q|` to binary64, with sign `neg`:
the spacing of the representable values around `|q|` is `2^e` with
`e = max (floor (log2 |q|) - 52) (-1074)`; a result of `2^1024` or more is an infinity.
`round_spec` states what it returns and `round_examples` evaluates it. -/
def F64.round (neg : Bool) (q : ℚ) : F64 :=
  let n := q.num.natAbs
  let d := q.den
  if n = 0 then .finite neg 0
  else
    let e := max (floorLog2 n d - 52) (-1074)
    let m := if 0 ≤ e then roundHalfEven n (d * 2 ^ e.toNat)
             else roundHalfEven (n * 2 ^ (-e).toNat) d
    if 971 < e ∨ (e = 971 ∧ m = 2 ^ 53) then .inf neg
    else .finite neg (if 0 ≤ e then mkRat (m * 2 ^ e.toNat) 1 else mkRat m (2 ^ (-e).toNat))

/-- The conversion `float64(i)` of an `int`. -/
def F64.ofInt (i : Int) : F64 := F64.round (decide (i < 0)) i

/-- The float64 quotient `x / y`, correctly rounded. -/
def F64.div : F64 → F64 → F64
  | .nan, _ => .nan
  | _, .nan => .nan
  | .inf _, .inf _ => .nan
  | .inf a, .finite b _ => .inf (a != b)
  | .finite a _, .inf b => .finite (a != b) 0
  | .finite a x, .finite b y =>
    if y = 0 then (if x = 0 then .nan else .inf (a != b))
    else F64.round (a != b) (x / y)

/-- The float64 zero that Go's literal `0` denotes. -/
def F64.zero : F64 := .finite false 0

/-- The rational value of a finite float64. -/
def F64.toRat? : F64 → Option ℚ
  | .finite neg mag => some (if neg then -mag else mag)
  | _ => none

/-- The mantissa scan of `readFloat` on texts without exponent: an optional sign, then
decimal digits with at most one period among them and at least one digit. Returns the sign,
the value read and the unread rest, or `none` when no digit was seen. -/
def readFloat (s : Bytes) : Option (Bool × ℚ × Bytes) :=
  let neg := decide (s.head? = some 45)
  let body := if s.head? = some 43 ∨ s.head? = some 45 then s.drop 1 else s
  let ip := body.takeWhile isDigitByte
  let rest1 := body.dropWhile isDigitByte
  let fp := if rest1.head? = some 46 then (rest1.drop 1).takeWhile isDigitByte else []
  let rest := if rest1.head? = some 46 then (rest1.drop 1).dropWhile isDigitByte else rest1
  if ip = [] ∧ fp = [] then none
  else some (neg, mkRat (digitsVal (ip ++ fp)) (10 ^ fp.length), rest)

/-- `strconv.ParseFloat(s, 64)` for the texts that groups 12 and 13 of the pattern can
hold, those made of decimal digits, periods and hyphens (see `latency_text_alphabet`):
when the whole text is a number, its value rounded to the nearest float64, or an infinity
with `ErrRange` when that rounding overflows; otherwise `0` with `ErrSyntax`.
Texts with other bytes (an exponent, a hexadecimal mantissa, underscores, "inf", "nan") are
outside this model. -/
def ParseFloat (s : Bytes) : F64 × Option NumError :=
  match readFloat s with
  | none => (F64.zero, some .ErrSyntax)
  | some (neg, q, rest) =>
    if rest ≠ [] then (F64.zero, some .ErrSyntax)
    else
      match F64.round neg q with
      | .inf sign => (.inf sign, some .ErrRange)
      | f => (f, none)

/-! ## `log_process.go` -/

/-- The struct `Message`. -/
structure Message where
  TimeLocal : Time
  BytesSent : Int
  Path : Bytes
  Method : Bytes
  Scheme : Bytes
  Status : Bytes
  UpstreamTime : F64
  RequestTime : F64
deriving DecidableEq

/-- `TypeHandleLine` -/
def TypeHandleLine : Nat := 0
/-- `TypeErrNum` -/
def TypeErrNum : Nat := 1

/-- What one iteration of a worker's loop sends: `events` on `TypeMonitorChan` and
`pushed` on its output channel, each in sending order. -/
structure Sent (α : Type) where
  events : List Nat
  pushed : List α
deriving DecidableEq

/-- The regexp compiled at the top of `Process`, `FindStringSubmatch` applied to a line. -/
def submatch (v : Bytes) : List Bytes := FindStringSubmatch logPattern logGroups v

/-- The body of the loop `for v := range l.rc` in `Process`, for one line `v`. -/
def processLine (v : Bytes) : Sent Message :=
  let ret := submatch v
  if ret.length ≠ 14 then ⟨[TypeErrNum], []⟩
  else
    match ParseInLocation (ret.getD 4 []) with
    | none => ⟨[TypeErrNum], []⟩
    | some t =>
      let byteSent := (Atoi (ret.getD 8 [])).1
      let reqSli := Split (ret.getD 6 []) 32
      if reqSli.length ≠ 3 then ⟨[TypeErrNum], []⟩
      else
        match urlParsePath (reqSli.getD 1 []) with
        | none => ⟨[TypeErrNum], []⟩
        | some path =>
          let upstreamTime := (ParseFloat (ret.getD 12 [])).1
          let requestTime := (ParseFloat (ret.getD 13 [])).1
          ⟨[], [{ TimeLocal := t, BytesSent := byteSent, Path := path,
                  Method := reqSli.getD 0 [], Scheme := ret.getD 5 [], Status := ret.getD 7 [],
                  UpstreamTime := upstreamTime, RequestTime := requestTime }]⟩

/-- `Process` on the lines received from `l.rc`, in order: everything it sends. -/
def Process : List Bytes → Sent Message
  | [] => ⟨[], []⟩
  | v :: rest =>
    ⟨(processLine v).events ++ (Process rest).events,
     (processLine v).pushed ++ (Process rest).pushed⟩

/-- The struct `SystemInfo`; `RunTime`, the formatted wall-clock run time, is left out.
The counters are 64-bit `int`s that grow by one per event; they are kept as unbounded
integers, a run never reaching `2^63` events. -/
structure SystemInfo where
  HandleLine : Int
  Tps : F64
  ReadChanLen : Int
  WriteChanLen : Int
  ErrNum : Int
deriving DecidableEq

/-- The struct `Monitor`; `startTime` is left out. -/
structure Monitor where
  data : SystemInfo
  tpsSli : List Int
deriving DecidableEq

/-- The monitor built in `main`: `SystemInfo{}` and a nil `tpsSli`. -/
def Monitor.init : Monitor := ⟨⟨0, F64.zero, 0, 0, 0⟩, []⟩

/-- The atomic steps of the three activities started by `Monitor.start`. -/
inductive MonitorStep where
  /-- The listener receives `n` from `TypeMonitorChan`. -/
  | recv (n : Nat)
  /-- The sampler receives from `ticker.C`. -/
  | tick
  /-- The handler of `/monitor` serves a request while the channels hold `readLen` and
  `writeLen` items. -/
  | request (readLen writeLen : Nat)

/-- One step of the monitor. -/
def Monitor.step (m : Monitor) : MonitorStep → Monitor
  | .recv n =>
    if n = TypeErrNum then { m with data := { m.data with ErrNum := m.data.ErrNum + 1 } }
    else if n = TypeHandleLine then
      { m with data := { m.data with HandleLine := m.data.HandleLine + 1 } }
    else m
  | .tick =>
    let sli := m.tpsSli ++ [m.data.HandleLine]
    { m with tpsSli := if 2 < sli.length then sli.drop 1 else sli }
  | .request readLen writeLen =>
    let data := { m.data with ReadChanLen := readLen, WriteChanLen := writeLen }
    if 2 ≤ m.tpsSli.length then
      { m with data := { data with
          Tps := F64.div (F64.ofInt (m.tpsSli.getD 1 0 - m.tpsSli.getD 0 0)) (F64.ofInt 5) } }
    else { m with data := data }

/-- The monitor after a sequence of steps. -/
def Monitor.run (m : Monitor) (steps : List MonitorStep) : Monitor := steps.foldl Monitor.step m

/-- The snapshot that a request serves: the monitor's `data` once the handler has
updated it. -/
def Monitor.snapshot (m : Monitor) (readLen writeLen : Nat) : SystemInfo :=
  (m.step (.request readLen writeLen)).data

/-- What happens to the file that `Read` follows, after `Read` has moved to its end. -/
inductive FileStep where
  /-- The writer of the log appends bytes to the file. -/
  | append (content : Bytes)
  /-- One iteration of the loop of `Read`. -/
  | poll

/-- The end of an iteration of `Read` in which `ReadBytes` returned `line` with a nil
error: send `TypeHandleLine`, then push the line without its last byte. -/
def readLine (line : Bytes) : Sent Bytes :=
  ⟨[TypeHandleLine], [line.take (line.length - 1)]⟩

/-- One iteration of the loop of `Read`, `unread` being the bytes of the file past the
reader's position. `rd.ReadBytes('\n')` returns the bytes up to and including the first
newline; when there is no newline it consumes and returns all of `unread` together with
`io.EOF`, and the iteration sleeps and continues without sending anything. Returns the
bytes left unread and what was sent. -/
def readIter (unread : Bytes) : Bytes × Sent Bytes :=
  if unread.contains 10 then
    ((unread.dropWhile (· ≠ 10)).drop 1, readLine (unread.takeWhile (· ≠ 10) ++ [10]))
  else ([], ⟨[], []⟩)

/-- `Read` along a sequence of appends and iterations, from `unread`: everything sent. -/
def readFrom : Bytes → List FileStep → Sent Bytes
  | _, [] => ⟨[], []⟩
  | unread, .append content :: rest => readFrom (unread ++ content) rest
  | unread, .poll :: rest =>
    ⟨(readIter unread).2.events ++ (readFrom (readIter unread).1 rest).events,
     (readIter unread).2.pushed ++ (readFrom (readIter unread).1 rest).pushed⟩

/-- `ReadFromFile.Read` after it has opened the file and moved to its end. -/
def Read (steps : List FileStep) : Sent Bytes := readFrom [] steps

/-- The events sent along the pipeline for the chunks that `ReadBytes` returns with a nil
error, one after the other: for each chunk the end of the iteration of `Read`, then
`Process` on the line pushed. -/
def pipelineEvents (chunks : List Bytes) : List Nat :=
  (chunks.map (fun chunk =>
    (readLine chunk).events ++ (Process (readLine chunk).pushed).events)).flatten

/-! ## Notions used in the statements -/

/-- A request target in origin form without fragment, escape or control byte. -/
def PlainTarget (target : Bytes) : Prop :=
  target.head? = some 47 ∧ (target.drop 1).head? ≠ some 47 ∧ 35 ∉ target ∧ 37 ∉ target ∧
    stringContainsCTLByte target = false

/-- The lines of a text that end in a newline, without their newline. -/
def terminatedLines (content : Bytes) : List Bytes := (Split content 10).dropLast

/-- The `HandleLine` totals at the sampler's ticks, in order, along a sequence of steps
that starts with the total `h`: the running count of received `TypeHandleLine` events,
noted at each tick. -/
def sampleTotals : Int → List MonitorStep → List Int
  | _, [] => []
  | h, .recv n :: rest => sampleTotals (if n = TypeHandleLine then h + 1 else h) rest
  | h, .tick :: rest => h :: sampleTotals h rest
  | h, .request _ _ :: rest => sampleTotals h rest

/-- The last two entries of a list (all of it when it has fewer). -/
def lastTwo : List Int → List Int
  | [] => []
  | [x] => [x]
  | [x, y] => [x, y]
  | _ :: y :: z :: rest => lastTwo (y :: z :: rest)

/-- Whether a step is a tick of the sampler. -/
def MonitorStep.isTick : MonitorStep → Bool
  | .tick => true
  | _ => false

/-- The invariant of the monitor: at most two samples, in increasing order, none above
the current total. -/
def Monitor.Ordered (m : Monitor) : Prop :=
  m.tpsSli.length ≤ 2 ∧ (∀ x ∈ m.tpsSli, x ≤ m.data.HandleLine) ∧ m.tpsSli.Pairwise (· ≤ ·)

/-- The bytes appended along a sequence of steps. -/
def appended : List FileStep → Bytes
  | [] => []
  | .append content :: rest => content ++ appended rest
  | .poll :: rest => appended rest

/-- Every append ends at the end of a line. -/
def WholeLineAppends : List FileStep → Prop
  | [] => True
  | .append content :: rest => (content = [] ∨ content.getLast? = some 10) ∧ WholeLineAppends rest
  | .poll :: rest => WholeLineAppends rest

/-! ## Example inputs -/

/-- The line given as an example in the comment of `Process`. -/
def sampleLine : Bytes :=
  ascii "172.0.0.12 - - [04/Mar/2018:13:49:52 +0000] http \"GET /foo?query=t HTTP/1.0\" 200 2133 \"-\" \"KeepAliveClient\" \"-\" 1.005 1.854"

/-- The example line with the zone text `+0800` in place of `+0000`. -/
def zoneLine : Bytes :=
  ascii "172.0.0.12 - - [04/Mar/2018:13:49:52 +0800] http \"GET /foo?query=t HTTP/1.0\" 200 2133 \"-\" \"KeepAliveClient\" \"-\" 1.005 1.854"

/-- The example line with text before and after it. -/
def wrappedLine : Bytes :=
  ascii "junk 172.0.0.12 - - [04/Mar/2018:13:49:52 +0000] http \"GET /foo?query=t HTTP/1.0\" 200 2133 \"-\" \"KeepAliveClient\" \"-\" 1.005 1.854 junk"

/-- The example line with the byte count `2^63`. -/
def bigBytesLine : Bytes :=
  ascii "172.0.0.12 - - [04/Mar/2018:13:49:52 +0000] http \"GET /foo?query=t HTTP/1.0\" 200 9223372036854775808 \"-\" \"KeepAliveClient\" \"-\" 1.005 1.854"

/-- The example line with a byte count of `2^63`, an upstream latency `1.2.3` and a request
latency `-`. -/
def oddNumbersLine : Bytes :=
  ascii "172.0.0.12 - - [04/Mar/2018:13:49:52 +0000] http \"GET /foo?query=t HTTP/1.0\" 200 9223372036854775808 \"-\" \"KeepAliveClient\" \"-\" 1.2.3 -"

/-- The example line with two spaces after the method. -/
def fourTokenLine : Bytes :=
  ascii "172.0.0.12 - - [04/Mar/2018:13:49:52 +0000] http \"GET  /foo?query=t HTTP/1.0\" 200 2133 \"-\" \"KeepAliveClient\" \"-\" 1.005 1.854"

/-- The example line with a malformed escape in the target. -/
def badEscapeLine : Bytes :=
  ascii "172.0.0.12 - - [04/Mar/2018:13:49:52 +0000] http \"GET /foo%zz HTTP/1.0\" 200 2133 \"-\" \"KeepAliveClient\" \"-\" 1.005 1.854"

/-- 100 lines handled, a tick, 50 more lines handled, a tick. -/
def hundredThenFifty : List MonitorStep :=
  List.replicate 100 (.recv TypeHandleLine) ++ [.tick] ++
    List.replicate 50 (.recv TypeHandleLine) ++ [.tick]

/-- A tick, one line handled, a tick. -/
def zeroThenOne : List MonitorStep := [.tick, .recv TypeHandleLine, .tick]

/-- An append that ends in the middle of a line, an iteration of `Read` that meets the end
of the file, the append of the rest of the line, another iteration. -/
def splitAppend : List FileStep :=
  [.append (ascii "ab"), .poll, .append (ascii "c\n"), .poll]

/-! ## Theorems -/

/-! ### Lemmas -/

theorem starGreedy_sound {α : Type} (c : Cls) (k : Bytes → Option α) (r : α) :
    ∀ s : Bytes, starGreedy c s k = some r →
      ∃ w rest, s = w ++ rest ∧ (∀ b ∈ w, c.test b = true) ∧ k rest = some r := by
  intro s
  induction s with
  | nil =>
    intro h
    exact ⟨[], [], rfl, by simp, by simpa [starGreedy] using h⟩
  | cons b bs ih =>
    intro h
    unfold starGreedy at h
    by_cases hb : c.test b = true
    · simp only [hb, if_true] at h
      cases hrec : starGreedy c bs k with
      | some r' =>
        rw [hrec] at h
        simp only [Option.some.injEq] at h
        subst h
        obtain ⟨w, rest, hs, hw, hk⟩ := ih hrec
        refine ⟨b :: w, rest, by simp [hs], ?_, hk⟩
        intro x hx
        rcases List.mem_cons.mp hx with hx | hx
        · subst hx; exact hb
        · exact hw x hx
      | none =>
        rw [hrec] at h
        exact ⟨[], b :: bs, rfl, by simp, h⟩
    · simp only [hb] at h
      exact ⟨[], b :: bs, rfl, by simp, by simpa using h⟩

theorem starLazy_sound {α : Type} (c : Cls) (k : Bytes → Option α) (r : α) :
    ∀ s : Bytes, starLazy c s k = some r →
      ∃ w rest, s = w ++ rest ∧ (∀ b ∈ w, c.test b = true) ∧ k rest = some r := by
  intro s
  induction s with
  | nil =>
    intro h
    exact ⟨[], [], rfl, by simp, by simpa [starLazy] using h⟩
  | cons b bs ih =>
    intro h
    unfold starLazy at h
    cases hk : k (b :: bs) with
    | some r' =>
      rw [hk] at h
      simp only [Option.some.injEq] at h
      subst h
      exact ⟨[], b :: bs, rfl, by simp, hk⟩
    | none =>
      rw [hk] at h
      by_cases hb : c.test b = true
      · simp only [hb, if_true] at h
        obtain ⟨w, rest, hs, hw, hk'⟩ := ih h
        refine ⟨b :: w, rest, by simp [hs], ?_, hk'⟩
        intro x hx
        rcases List.mem_cons.mp hx with hx | hx
        · subst hx; exact hb
        · exact hw x hx
      · simp [hb] at h

theorem run_sound (r : Re) : ∀ (s : Bytes) (caps : Caps) (k : Bytes → Caps → Option Caps)
    (out : Caps), r.run s caps k = some out →
      ∃ w rest caps', s = w ++ rest ∧ Re.Sem r w caps caps' ∧ k rest caps' = some out := by
  induction r with
  | one c =>
    intro s caps k out h
    cases s with
    | nil => simp [Re.run] at h
    | cons b bs =>
      by_cases hb : c.test b = true
      · simp only [Re.run, hb, if_true] at h
        exact ⟨[b], bs, caps, rfl, ⟨⟨b, rfl, hb⟩, rfl⟩, h⟩
      · simp [Re.run, hb] at h
  | star greedy c =>
    intro s caps k out h
    cases greedy with
    | true =>
      simp only [Re.run] at h
      obtain ⟨w, rest, hs, hw, hk⟩ := starGreedy_sound c _ out s h
      exact ⟨w, rest, caps, hs, ⟨hw, rfl⟩, hk⟩
    | false =>
      simp only [Re.run] at h
      obtain ⟨w, rest, hs, hw, hk⟩ := starLazy_sound c _ out s h
      exact ⟨w, rest, caps, hs, ⟨hw, rfl⟩, hk⟩
  | cat a b iha ihb =>
    intro s caps k out h
    simp only [Re.run] at h
    obtain ⟨w1, rest1, caps1, hs1, hsem1, hk1⟩ := iha s caps _ out h
    obtain ⟨w2, rest, caps2, hs2, hsem2, hk2⟩ := ihb rest1 caps1 k out hk1
    exact ⟨w1 ++ w2, rest, caps2, by simp [hs1, hs2], ⟨w1, w2, caps1, rfl, hsem1, hsem2⟩, hk2⟩
  | cap i a iha =>
    intro s caps k out h
    simp only [Re.run] at h
    obtain ⟨w, rest, mid, hs, hsem, hk⟩ := iha s caps _ out h
    refine ⟨w, rest, mid.set i w, hs, ⟨mid, hsem, rfl⟩, ?_⟩
    have : s.take (s.length - rest.length) = w := by
      subst hs
      simp
    simpa [this] using hk

theorem Sem_length (r : Re) : ∀ (w : Bytes) (caps caps' : Caps),
    Re.Sem r w caps caps' → caps'.length = caps.length := by
  induction r with
  | one c => intro w caps caps' h; rw [h.2]
  | star g c => intro w caps caps' h; rw [h.2]
  | cat a b iha ihb =>
    rintro w caps caps' ⟨w1, w2, mid, -, h1, h2⟩
    rw [ihb _ _ _ h2, iha _ _ _ h1]
  | cap i a iha =>
    rintro w caps caps' ⟨mid, h1, rfl⟩
    simp [iha _ _ _ h1]

theorem Sem_matches (r : Re) : ∀ (w : Bytes) (caps caps' : Caps),
    Re.Sem r w caps caps' → Re.Matches r w := by
  induction r with
  | one c => intro w caps caps' h; exact h.1
  | star g c => intro w caps caps' h; exact h.1
  | cat a b iha ihb =>
    rintro w caps caps' ⟨w1, w2, mid, hw, h1, h2⟩
    exact ⟨w1, w2, hw, iha _ _ _ h1, ihb _ _ _ h2⟩
  | cap i a iha =>
    rintro w caps caps' ⟨mid, h1, -⟩
    exact iha _ _ _ h1

theorem fill_append (caps : Caps) (xs ys : List (Nat × Bytes)) :
    fill caps (xs ++ ys) = fill (fill caps xs) ys := by
  simp [fill, List.foldl_append]

theorem Sem_groups (r : Re) : ∀ (w : Bytes) (caps caps' : Caps),
    Re.Sem r w caps caps' →
      ∃ texts : List Bytes, List.Forall₂ (fun g t => Re.Matches g.2 t) r.groups texts ∧
        caps' = fill caps ((r.groups.map Prod.fst).zip texts) := by
  induction r with
  | one c => intro w caps caps' h; exact ⟨[], by simp [Re.groups], by simp [Re.groups, fill, h.2]⟩
  | star g c => intro w caps caps' h; exact ⟨[], by simp [Re.groups], by simp [Re.groups, fill, h.2]⟩
  | cat a b iha ihb =>
    rintro w caps caps' ⟨w1, w2, mid, -, h1, h2⟩
    obtain ⟨t1, hf1, hc1⟩ := iha _ _ _ h1
    obtain ⟨t2, hf2, hc2⟩ := ihb _ _ _ h2
    refine ⟨t1 ++ t2, List.rel_append hf1 hf2, ?_⟩
    have hlen : (a.groups.map Prod.fst).length = t1.length := by
      simp [hf1.length_eq]
    rw [Re.groups, List.map_append, List.zip_append hlen, fill_append, ← hc1, ← hc2]
  | cap i a iha =>
    rintro w caps caps' ⟨mid, h1, rfl⟩
    obtain ⟨t1, hf1, hc1⟩ := iha _ _ _ h1
    refine ⟨t1 ++ [w], List.rel_append hf1 ?_, ?_⟩
    · exact List.Forall₂.cons (Sem_matches a _ _ _ h1) List.Forall₂.nil
    · have hlen : (a.groups.map Prod.fst).length = t1.length := by
        simp [hf1.length_eq]
      rw [Re.groups, List.map_append, List.zip_append hlen, fill_append, ← hc1]
      simp [fill]

theorem search_sound (r : Re) (n : Nat) : ∀ (s : Bytes) (out : Caps), r.search n s = some out →
    ∃ pre w post caps1, s = pre ++ w ++ post ∧
      Re.Sem r w (List.replicate (n + 1) []) caps1 ∧ out = caps1.set 0 w := by
  intro s
  induction s with
  | nil =>
    intro out h
    simp only [Re.search, Re.matchAt] at h
    obtain ⟨w, rest, caps', hs, ⟨mid, hsem, hmid⟩, hk⟩ := run_sound _ _ _ _ _ h
    simp only [Option.some.injEq] at hk
    exact ⟨[], w, rest, mid, by simpa using hs, hsem, by rw [← hk, hmid]⟩
  | cons b bs ih =>
    intro out h
    simp only [Re.search] at h
    cases hm : r.matchAt n (b :: bs) with
    | some caps =>
      rw [hm] at h
      simp only [Option.some.injEq] at h
      subst h
      simp only [Re.matchAt] at hm
      obtain ⟨w, rest, caps', hs, ⟨mid, hsem, hmid⟩, hk⟩ := run_sound _ _ _ _ _ hm
      simp only [Option.some.injEq] at hk
      exact ⟨[], w, rest, mid, by simpa using hs, hsem, by rw [← hk, hmid]⟩
    | none =>
      rw [hm] at h
      obtain ⟨pre, w, post, caps1, hs, hsem, hout⟩ := ih out h
      exact ⟨b :: pre, w, post, caps1, by simp [hs], hsem, hout⟩

theorem matches_plus (c : Cls) (t : Bytes) : Re.Matches (Re.plus c) t → ClassText c t := by
  rintro ⟨w1, w2, rfl, ⟨b, rfl, hb⟩, h2⟩
  refine ⟨by simp, ?_⟩
  intro x hx
  simp only [List.singleton_append, List.mem_cons] at hx
  rcases hx with hx | hx
  · subst hx; exact hb
  · exact h2 x hx

theorem matches_three (c : Cls) (t : Bytes) :
    Re.Matches (Re.three c) t → t.length = 3 ∧ ∀ b ∈ t, c.test b = true := by
  rintro ⟨w1, w2, rfl, ⟨b1, rfl, hb1⟩, w3, w4, rfl, ⟨b2, rfl, hb2⟩, b3, rfl, hb3⟩
  refine ⟨by simp, ?_⟩
  intro x hx
  simp only [List.singleton_append, List.mem_cons, List.mem_singleton] at hx
  rcases hx with hx | hx | hx | hx
  · subst hx; exact hb1
  · subst hx; exact hb2
  · subst hx; exact hb3
  · simp at hx

theorem logPattern_groups : logPattern.groups =
    [(1, Re.plus clsDigitDot), (2, Re.plus clsNotSpaceBracket), (3, Re.plus clsNotSpaceBracket),
     (4, Re.plus clsNotClose), (5, Re.plus clsLower), (6, Re.plus clsNotQuote),
     (7, Re.three clsDigit), (8, Re.plus clsDigit), (9, Re.plus clsNotQuote),
     (10, .star false clsDot), (11, Re.plus clsNum), (12, Re.plus clsNum),
     (13, Re.plus clsNum)] := by
  rfl

theorem submatch_sound (v : Bytes) (h : submatch v ≠ []) : Submatch v (submatch v) := by
  unfold submatch FindStringSubmatch at h ⊢
  cases hs : logPattern.search logGroups v with
  | none => simp [hs] at h
  | some out =>
    obtain ⟨pre, w, post, caps1, hv, hsem, hout⟩ := search_sound _ _ _ _ hs
    obtain ⟨texts, hf, hc⟩ := Sem_groups _ _ _ _ hsem
    rw [logPattern_groups] at hf hc
    simp only [List.forall₂_cons_left_iff, List.forall₂_nil_left_iff] at hf
    obtain ⟨g1, _, h1, ⟨g2, _, h2, ⟨g3, _, h3, ⟨g4, _, h4, ⟨g5, _, h5, ⟨g6, _, h6, ⟨g7, _, h7,
      ⟨g8, _, h8, ⟨g9, _, h9, ⟨g10, _, h10, ⟨g11, _, h11, ⟨g12, _, h12, ⟨g13, _, h13,
      rfl, rfl⟩, rfl⟩, rfl⟩, rfl⟩, rfl⟩, rfl⟩, rfl⟩, rfl⟩, rfl⟩, rfl⟩, rfl⟩, rfl⟩, rfl⟩ := hf
    refine ⟨pre, w, post, g1, g2, g3, g4, g5, g6, g7, g8, g9, g10, g11, g12, g13, hv,
      Sem_matches _ _ _ _ hsem, ?_, matches_plus _ _ h1, matches_plus _ _ h2,
      matches_plus _ _ h3, matches_plus _ _ h4, matches_plus _ _ h5, matches_plus _ _ h6,
      matches_three _ _ h7, matches_plus _ _ h8, matches_plus _ _ h9, h10,
      matches_plus _ _ h11, matches_plus _ _ h12, matches_plus _ _ h13⟩
    simp only [Option.getD_some]
    rw [hout, hc]
    simp [fill, logGroups, List.replicate]

theorem submatch_length (v : Bytes) (h : submatch v ≠ []) : (submatch v).length = 14 := by
  obtain ⟨pre, w, post, g1, g2, g3, g4, g5, g6, g7, g8, g9, g10, g11, g12, g13, -, -, hret, -⟩ :=
    submatch_sound v h
  rw [hret]
  rfl

theorem processLine_nomatch (v : Bytes) (h : submatch v = []) :
    processLine v = ⟨[TypeErrNum], []⟩ := by
  simp [processLine, h]

theorem processLine_badTime (v : Bytes)
    (ht : ParseInLocation ((submatch v).getD 4 []) = none) :
    processLine v = ⟨[TypeErrNum], []⟩ := by
  unfold processLine
  by_cases hlen : (submatch v).length ≠ 14
  · simp [hlen]
  · simp only [hlen, if_false, ht]

theorem processLine_badSplit (v : Bytes)
    (hs : (Split ((submatch v).getD 6 []) 32).length ≠ 3) :
    processLine v = ⟨[TypeErrNum], []⟩ := by
  unfold processLine
  by_cases hlen : (submatch v).length ≠ 14
  · simp [hlen]
  · simp only [hlen, if_false]
    cases ht : ParseInLocation ((submatch v).getD 4 []) with
    | none => rfl
    | some t => simp only [if_pos hs]

theorem processLine_badUrl (v : Bytes)
    (hu : urlParsePath ((Split ((submatch v).getD 6 []) 32).getD 1 []) = none) :
    processLine v = ⟨[TypeErrNum], []⟩ := by
  unfold processLine
  by_cases hlen : (submatch v).length ≠ 14
  · simp [hlen]
  · simp only [hlen, if_false]
    cases ht : ParseInLocation ((submatch v).getD 4 []) with
    | none => rfl
    | some t =>
      by_cases hs : (Split ((submatch v).getD 6 []) 32).length ≠ 3
      · simp only [if_pos hs]
      · simp only [if_neg hs, hu]

theorem processLine_ok (v : Bytes) (t : Time) (path : Bytes) (hm : submatch v ≠ [])
    (ht : ParseInLocation ((submatch v).getD 4 []) = some t)
    (hs : (Split ((submatch v).getD 6 []) 32).length = 3)
    (hu : urlParsePath ((Split ((submatch v).getD 6 []) 32).getD 1 []) = some path) :
    processLine v =
      ⟨[], [{ TimeLocal := t, BytesSent := (Atoi ((submatch v).getD 8 [])).1, Path := path,
              Method := (Split ((submatch v).getD 6 []) 32).getD 0 [],
              Scheme := (submatch v).getD 5 [], Status := (submatch v).getD 7 [],
              UpstreamTime := (ParseFloat ((submatch v).getD 12 [])).1,
              RequestTime := (ParseFloat ((submatch v).getD 13 [])).1 }]⟩ := by
  have hlen := submatch_length v hm
  unfold processLine
  simp only [hlen, ne_eq, not_true_eq_false, if_false, ht, hs, hu]

/-- Every line gives either one error event and no message, or one message and no event. -/
theorem processLine_cases (v : Bytes) :
    processLine v = ⟨[TypeErrNum], []⟩ ∨ ∃ m, processLine v = ⟨[], [m]⟩ := by
  by_cases hm : submatch v = []
  · exact Or.inl (processLine_nomatch v hm)
  · cases ht : ParseInLocation ((submatch v).getD 4 []) with
    | none => exact Or.inl (processLine_badTime v ht)
    | some t =>
      by_cases hs : (Split ((submatch v).getD 6 []) 32).length = 3
      · cases hu : urlParsePath ((Split ((submatch v).getD 6 []) 32).getD 1 []) with
        | none => exact Or.inl (processLine_badUrl v hu)
        | some path => exact Or.inr ⟨_, processLine_ok v t path hm ht hs hu⟩
      · exact Or.inl (processLine_badSplit v hs)

theorem unescape_plain : ∀ s : Bytes, 37 ∉ s → unescape .encodePath s = some s := by
  intro s
  induction s with
  | nil => intro _; simp [unescape]
  | cons c rest ih =>
    intro h
    have hc : c ≠ 37 := fun e => h (by simp [e])
    have hr : 37 ∉ rest := fun e => h (by simp [e])
    unfold unescape
    simp [hc, Encoding.hostLike, ih hr]

theorem urlParsePath_plain (target : Bytes) (h : PlainTarget target) :
    urlParsePath target = some (target.takeWhile (· ≠ 63)) := by
  obtain ⟨hhead, hsecond, hfrag, hesc, hctl⟩ := h
  cases target with
  | nil => simp at hhead
  | cons c rest =>
    simp only [List.head?_cons, Option.some.injEq] at hhead
    subst hhead
    have hcut : cut (47 :: rest) 35 = (47 :: rest, []) := by
      have h1 : ∀ x ∈ (47 :: rest), (decide (x ≠ 35)) = true := by
        intro x hx
        simp only [ne_eq, decide_not, Bool.not_eq_eq_eq_not, Bool.not_true, decide_eq_false_iff_not]
        rintro rfl
        exact hfrag hx
      simp only [cut]
      rw [List.takeWhile_eq_self_iff.mpr h1, List.dropWhile_eq_nil_iff.mpr h1]
      rfl
    have hpath : 37 ∉ List.takeWhile (fun x => decide (x ≠ 63)) rest := by
      intro hmem
      exact hesc (List.mem_cons_of_mem _ ((List.takeWhile_sublist _).subset hmem))
    have hnotslash : ¬ (ascii "//").isPrefixOf (47 :: List.takeWhile (fun x => decide (x ≠ 63)) rest) = true := by
      cases rest with
      | nil => decide
      | cons d rest2 =>
        simp only [List.drop_succ_cons, List.drop_zero, List.head?_cons, ne_eq,
          Option.some.injEq] at hsecond
        have h2 : ascii "//" = [47, 47] := by decide
        by_cases hd : d = 63
        · subst hd
          simp [h2, List.takeWhile_cons, List.isPrefixOf]
        · simp [h2, List.takeWhile_cons, hd, List.isPrefixOf]
          omega
    unfold urlParsePath
    rw [hcut]
    simp only [unescape, Option.isSome_some, if_true]
    unfold parseNoFragment
    simp only [hctl, Bool.false_eq_true, if_false]
    have h42 : (47 :: rest : Bytes) ≠ [42] := by simp
    simp only [h42, if_false]
    have hsch : getScheme (47 :: rest) = some ([], 47 :: rest) := by
      simp [getScheme, getSchemeLoop]
    rw [hsch]
    have hcut2 : (cut (47 :: rest) 63).1 = 47 :: List.takeWhile (fun x => decide (x ≠ 63)) rest := by
      simp [cut, List.takeWhile_cons]
    have hun : unescape .encodePath (47 :: List.takeWhile (fun x => decide (x ≠ 63)) rest) =
        some (47 :: List.takeWhile (fun x => decide (x ≠ 63)) rest) := by
      apply unescape_plain
      intro hmem
      rcases List.mem_cons.mp hmem with h37 | h37
      · omega
      · exact hpath h37
    simp only [hcut2, List.head?_cons, ne_eq, not_true_eq_false, false_and, if_false, hnotslash,
      and_false, hun]
    simp [List.takeWhile_cons]

theorem clsDigit_test (b : Nat) (h : clsDigit.test b = true) : 48 ≤ b ∧ b ≤ 57 := by
  simpa [Cls.test, clsDigit] using h

theorem parseUintLoop_digits : ∀ (s : Bytes) (n : Nat), (∀ b ∈ s, 48 ≤ b ∧ b ≤ 57) →
    parseUintLoop s n = (s.foldl (fun n d => n * 10 + (d - 48)) n, none) ∨
      parseUintLoop s n = (2 ^ 64 - 1, some .ErrRange) := by
  intro s
  induction s with
  | nil => intro n _; left; rfl
  | cons c cs ih =>
    intro n hd
    have hc : 48 ≤ c ∧ c ≤ 57 := hd c (by simp)
    have hcs : ∀ b ∈ cs, 48 ≤ b ∧ b ≤ 57 := fun b hb => hd b (by simp [hb])
    unfold parseUintLoop
    simp only [hc, and_self, not_true_eq_false, if_false]
    by_cases h1 : (2 ^ 64 - 1) / 10 + 1 ≤ n
    · right; simp only [h1, if_true]
    · simp only [h1, if_false]
      by_cases h2 : 2 ^ 64 - 1 < n * 10 + (c - 48)
      · right; simp only [h2, if_true]
      · simp only [h2, if_false]
        exact ih _ hcs

/-- On a non-empty text of decimal digits `Atoi` has no syntax error: it returns the value,
or `2^63 - 1` with `ErrRange`. -/
theorem Atoi_digits (s : Bytes) (hne : s ≠ []) (hd : ∀ b ∈ s, 48 ≤ b ∧ b ≤ 57) :
    Atoi s = ((digitsVal s : Int), none) ∨ Atoi s = (2 ^ 63 - 1, some .ErrRange) := by
  cases s with
  | nil => exact absurd rfl hne
  | cons c cs =>
    have hc : 48 ≤ c ∧ c ≤ 57 := hd c (by simp)
    have h45 : c ≠ 45 := by omega
    have h43 : c ≠ 43 := by omega
    unfold Atoi
    by_cases hfast : 0 < (c :: cs).length ∧ (c :: cs).length < 19
    · left
      simp only [hfast, and_self, if_true]
      have hall : (c :: cs).all isDigitByte = true := by
        rw [List.all_eq_true]
        intro b hb
        have := hd b hb
        simp [isDigitByte, this]
      simp [atoiFast, h45, h43, hall]
    · simp only [hfast, if_false]
      simp only [ParseInt, h45, h43, or_self, if_false, decide_False, ParseUint]
      have hne2 : (c :: cs : Bytes) ≠ [] := by simp
      simp only [hne2, if_false]
      rcases parseUintLoop_digits (c :: cs) 0 hd with h | h
      · rw [h]
        simp only [Bool.not_false, Bool.true_and, Bool.false_and, Bool.false_eq_true, if_false,
          digitsVal]
        generalize List.foldl (fun n d => n * 10 + (d - 48)) 0 (c :: cs) = un
        by_cases hbig : 2 ^ 63 ≤ un
        · right
          simp only [hbig, decide_True, if_true]
        · left
          simp only [hbig, decide_False, Bool.false_eq_true, if_false]
      · rw [h]
        right
        simp

theorem ParseFloat_errSyntax (s : Bytes) (h : (ParseFloat s).2 = some .ErrSyntax) :
    (ParseFloat s).1 = F64.zero := by
  unfold ParseFloat at h ⊢
  cases hr : readFloat s with
  | none => rfl
  | some r =>
    obtain ⟨neg, q, rest⟩ := r
    simp only [hr] at h ⊢
    by_cases hrest : rest ≠ []
    · rw [if_pos hrest]
    · simp only [hrest, if_false] at h ⊢
      cases hq : F64.round neg q with
      | finite a b => simp [hq] at h
      | inf a => simp [hq] at h
      | nan => simp [hq] at h

theorem ParseFloat_errRange (s : Bytes) (h : (ParseFloat s).2 = some .ErrRange) :
    ∃ sign, (ParseFloat s).1 = F64.inf sign := by
  unfold ParseFloat at h ⊢
  cases hr : readFloat s with
  | none => simp [hr] at h
  | some r =>
    obtain ⟨neg, q, rest⟩ := r
    simp only [hr] at h ⊢
    by_cases hrest : rest ≠ []
    · simp [hrest] at h
    · simp only [hrest, if_false] at h ⊢
      cases hq : F64.round neg q with
      | finite a b => simp [hq] at h
      | inf a => exact ⟨a, rfl⟩
      | nan => simp [hq] at h

/-- The texts handed to `ParseFloat` are non-empty and made of digits, periods and
hyphens; the text handed to `Atoi` is non-empty and made of digits. -/
theorem latency_text_alphabet (v : Bytes) (h : submatch v ≠ []) :
    ClassText clsDigit ((submatch v).getD 8 []) ∧ ClassText clsNum ((submatch v).getD 12 []) ∧
      ClassText clsNum ((submatch v).getD 13 []) := by
  obtain ⟨pre, w, post, g1, g2, g3, g4, g5, g6, g7, g8, g9, g10, g11, g12, g13, -, -, hret,
    -, -, -, -, -, -, -, h8, -, -, -, h12, h13⟩ := submatch_sound v h
  rw [hret]
  exact ⟨h8, h12, h13⟩

theorem matches_head (w : Bytes) (h : Re.Matches logPattern w) :
    ∃ b rest, w = b :: rest ∧ clsDigitDot.test b = true := by
  obtain ⟨w1, w2, rfl, ⟨u1, u2, rfl, ⟨b, rfl, hb⟩, -⟩, -⟩ := h
  exact ⟨b, u2 ++ w2, by simp, hb⟩

theorem lastTwo_eq_drop : ∀ l : List Int, lastTwo l = l.drop (l.length - 2)
  | [] => rfl
  | [_] => rfl
  | [_, _] => rfl
  | x :: y :: z :: rest => by
    rw [lastTwo, lastTwo_eq_drop (y :: z :: rest)]
    simp

theorem lastTwo_length (l : List Int) : (lastTwo l).length = min l.length 2 := by
  rw [lastTwo_eq_drop, List.length_drop]
  omega

theorem lastTwo_two (l : List Int) (h : 2 ≤ l.length) :
    lastTwo l = [l.getD (l.length - 2) 0, l.getD (l.length - 1) 0] := by
  rw [lastTwo_eq_drop]
  apply List.ext_getElem
  · simp; omega
  · intro i h1 h2
    simp only [List.length_cons, List.length_singleton, List.length_nil] at h2
    have hi : i = 0 ∨ i = 1 := by omega
    rcases hi with rfl | rfl
    · simp [List.getD_eq_getElem?_getD, List.getElem?_eq_getElem (show l.length - 2 < l.length by omega)]
    · simp [List.getD_eq_getElem?_getD]
      rw [List.getElem?_eq_getElem (show l.length - 1 < l.length by omega)]
      simp
      congr 1
      omega

theorem sampleTotals_length : ∀ (steps : List MonitorStep) (h : Int),
    (sampleTotals h steps).length = steps.countP MonitorStep.isTick := by
  intro steps
  induction steps with
  | nil => intro h; rfl
  | cons e rest ih =>
    intro h
    cases e with
    | recv n => simp [sampleTotals, ih, MonitorStep.isTick]
    | tick => simp [sampleTotals, ih, MonitorStep.isTick]
    | request a b => simp [sampleTotals, ih, MonitorStep.isTick]

theorem run_cons (m : Monitor) (e : MonitorStep) (rest : List MonitorStep) :
    m.run (e :: rest) = (m.step e).run rest := rfl

theorem run_tpsSli : ∀ (steps : List MonitorStep) (m : Monitor), m.tpsSli.length ≤ 2 →
    (m.run steps).tpsSli = lastTwo (m.tpsSli ++ sampleTotals m.data.HandleLine steps) := by
  intro steps
  induction steps with
  | nil =>
    intro m hm
    simp only [sampleTotals, List.append_nil, Monitor.run, List.foldl_nil]
    rw [lastTwo_eq_drop]
    simp [Nat.sub_eq_zero_of_le hm]
  | cons e rest ih =>
    intro m hm
    rw [run_cons]
    cases e with
    | recv n =>
      have h1 : (m.step (.recv n)).tpsSli = m.tpsSli := by
        simp only [Monitor.step]; split_ifs <;> rfl
      have h2 : (m.step (.recv n)).data.HandleLine
          = if n = TypeHandleLine then m.data.HandleLine + 1 else m.data.HandleLine := by
        simp only [Monitor.step, TypeErrNum, TypeHandleLine]
        split_ifs <;> first | rfl | omega
      rw [ih _ (by rw [h1]; exact hm), h1, h2]
      rfl
    | request a b =>
      have h1 : (m.step (.request a b)).tpsSli = m.tpsSli := by
        simp only [Monitor.step]; split_ifs <;> rfl
      have h2 : (m.step (.request a b)).data.HandleLine = m.data.HandleLine := by
        simp only [Monitor.step]; split_ifs <;> rfl
      rw [ih _ (by rw [h1]; exact hm), h1, h2]
      rfl
    | tick =>
      have h2 : (m.step .tick).data.HandleLine = m.data.HandleLine := rfl
      obtain ⟨data, sli⟩ := m
      match sli, hm with
      | [], _ =>
        rw [ih _ (by simp [Monitor.step]), h2]
        simp [Monitor.step, sampleTotals]
      | [a], _ =>
        rw [ih _ (by simp [Monitor.step]), h2]
        simp [Monitor.step, sampleTotals]
      | [a, b], _ =>
        rw [ih _ (by simp [Monitor.step]), h2]
        simp [Monitor.step, sampleTotals, lastTwo]
      | _ :: _ :: _ :: _, hm => simp at hm

theorem step_ordered (m : Monitor) (e : MonitorStep) (h : m.Ordered) : (m.step e).Ordered := by
  obtain ⟨hlen, hle, hp⟩ := h
  cases e with
  | recv n =>
    simp only [Monitor.step]
    split_ifs
    · exact ⟨hlen, hle, hp⟩
    · exact ⟨hlen, fun x hx => by have := hle x hx; simp only; omega, hp⟩
    · exact ⟨hlen, hle, hp⟩
  | request a b =>
    simp only [Monitor.step]
    split_ifs
    · exact ⟨hlen, hle, hp⟩
    · exact ⟨hlen, hle, hp⟩
  | tick =>
    have happ : (m.tpsSli ++ [m.data.HandleLine]).Pairwise (· ≤ ·) := by
      rw [List.pairwise_append]
      exact ⟨hp, by simp, fun x hx y hy => by
        simp only [List.mem_singleton] at hy; subst hy; exact hle x hx⟩
    have hmem : ∀ x ∈ m.tpsSli ++ [m.data.HandleLine], x ≤ m.data.HandleLine := by
      intro x hx
      rcases List.mem_append.mp hx with hx | hx
      · exact hle x hx
      · simp only [List.mem_singleton] at hx; omega
    simp only [Monitor.step]
    split_ifs with h3
    · refine ⟨?_, ?_, ?_⟩
      · simp only [List.length_drop, List.length_append, List.length_singleton]; omega
      · intro x hx; exact hmem x (List.mem_of_mem_drop hx)
      · exact happ.sublist (List.drop_sublist _ _)
    · exact ⟨by simpa using h3, hmem, happ⟩

theorem run_ordered : ∀ (steps : List MonitorStep) (m : Monitor), m.Ordered →
    (m.run steps).Ordered := by
  intro steps
  induction steps with
  | nil => intro m h; exact h
  | cons e rest ih => intro m h; rw [run_cons]; exact ih _ (step_ordered m e h)

theorem init_ordered : Monitor.init.Ordered := ⟨by simp [Monitor.init], by simp [Monitor.init], by simp [Monitor.init]⟩

theorem run_tps_unset : ∀ (steps : List MonitorStep) (m : Monitor), m.tpsSli.length ≤ 2 →
    m.tpsSli.length + (sampleTotals m.data.HandleLine steps).length < 2 →
    (m.run steps).data.Tps = m.data.Tps := by
  intro steps
  induction steps with
  | nil => intro m _ _; rfl
  | cons e rest ih =>
    intro m hm hlt
    rw [run_cons]
    cases e with
    | recv n =>
      have h1 : (m.step (.recv n)).tpsSli = m.tpsSli := by
        simp only [Monitor.step]; split_ifs <;> rfl
      have h2 : (m.step (.recv n)).data.HandleLine
          = if n = TypeHandleLine then m.data.HandleLine + 1 else m.data.HandleLine := by
        simp only [Monitor.step, TypeErrNum, TypeHandleLine]
        split_ifs <;> first | rfl | omega
      have h3 : (m.step (.recv n)).data.Tps = m.data.Tps := by
        simp only [Monitor.step]; split_ifs <;> rfl
      rw [ih _ (by rw [h1]; exact hm) (by rw [h1, h2]; simpa [sampleTotals] using hlt), h3]
    | request a b =>
      have hshort : ¬ 2 ≤ m.tpsSli.length := by omega
      have h1 : (m.step (.request a b)) = { m with data := { m.data with ReadChanLen := a, WriteChanLen := b } } := by
        simp only [Monitor.step, hshort, if_false]
      rw [ih _ (by rw [h1]; exact hm) (by rw [h1]; simpa [sampleTotals] using hlt), h1]
    | tick =>
      simp only [sampleTotals, List.length_cons] at hlt
      have hnil : m.tpsSli = [] := List.length_eq_zero.mp (by omega)
      have h1 : (m.step .tick).tpsSli = [m.data.HandleLine] := by
        simp [Monitor.step, hnil]
      have h2 : (m.step .tick).data = m.data := rfl
      rw [ih _ (by rw [h1]; simp) (by rw [h1, h2]; simp; omega), h2]

theorem ilog2Loop_spec : ∀ (fuel n : Nat), 0 < n → n ≤ fuel →
    2 ^ ilog2Loop fuel n ≤ n ∧ n < 2 ^ (ilog2Loop fuel n + 1) := by
  intro fuel
  induction fuel with
  | zero => intro n h0 h; omega
  | succ f ih =>
    intro n h0 h
    unfold ilog2Loop
    by_cases h2 : n < 2
    · simp only [h2, if_true]
      omega
    · simp only [h2, if_false]
      have hdiv : 0 < n / 2 := Nat.div_pos (by omega) (by omega)
      have hle : n / 2 ≤ f := by omega
      obtain ⟨ha, hb⟩ := ih (n / 2) hdiv hle
      have e1 : 2 ^ (ilog2Loop f (n / 2) + 1) = 2 * 2 ^ ilog2Loop f (n / 2) := by
        rw [pow_succ]; ring
      have e2 : 2 ^ (ilog2Loop f (n / 2) + 1 + 1) = 2 * 2 ^ (ilog2Loop f (n / 2) + 1) := by
        rw [pow_succ]; ring
      rw [e2]
      constructor
      · rw [e1]; omega
      · omega

theorem ilog2_spec (n : Nat) (h0 : 0 < n) : 2 ^ ilog2 n ≤ n ∧ n < 2 ^ (ilog2 n + 1) :=
  ilog2Loop_spec n n h0 (le_refl n)

theorem roundHalfEven_one (n : Nat) : roundHalfEven n 1 = n := by
  simp [roundHalfEven, Nat.mod_one]

/-- Rounding is exact on the integers below `2^53`. -/
theorem round_natCast (neg : Bool) (n : Nat) (h : n < 2 ^ 53) :
    F64.round neg (n : ℚ) = .finite neg n := by
  by_cases h0 : n = 0
  · subst h0
    simp [F64.round]
  have hpos : 0 < n := Nat.pos_of_ne_zero h0
  obtain ⟨hlo, hhi⟩ := ilog2_spec n hpos
  have hk : ilog2 n ≤ 52 := by
    by_contra hc
    have : 2 ^ 53 ≤ 2 ^ ilog2 n := Nat.pow_le_pow_right (by norm_num) (by omega)
    omega
  have h1 : ilog2 1 = 0 := by decide
  have hfl : floorLog2 n 1 = (ilog2 n : Int) := by
    simp only [floorLog2, h1]
    simp [hlo]
  unfold F64.round
  simp only [Rat.num_natCast, Int.natAbs_ofNat, Rat.den_natCast, h0, if_false, hfl]
  obtain ⟨j, hj⟩ : ∃ j : Nat, j = 52 - ilog2 n := ⟨_, rfl⟩
  have he : max ((ilog2 n : Int) - 52) (-1074) = -(j : Int) := by omega
  rw [he]
  by_cases hj0 : j = 0
  · subst hj0
    simp [roundHalfEven_one, Rat.mkRat_one]
  · have hneg : ¬ (0 : Int) ≤ -(j : Int) := by omega
    have htn : (- -(j : Int)).toNat = j := by simp
    simp only [hneg, if_false, roundHalfEven_one, htn]
    rw [if_neg (by rintro (hc | ⟨hc, -⟩) <;> omega)]
    congr 1
    have hp : (2 ^ j : Nat) ≠ 0 := by positivity
    have := @Rat.mkRat_mul_right (n : Int) 1 (2 ^ j) hp
    simp only [one_mul] at this
    rw [show ((n * 2 ^ j : Nat) : Int) = (n : Int) * ((2 ^ j : Nat) : Int) by push_cast; ring]
    rw [this, Rat.mkRat_one]
    simp

theorem ofInt_natCast (n : Nat) (h : n < 2 ^ 53) : F64.ofInt (n : Int) = .finite false n := by
  unfold F64.ofInt
  have : decide ((n : Int) < 0) = false := by simp
  rw [this]
  exact_mod_cast round_natCast false n h

/-- The float64 quotient of a non-negative integer below `2^53` by 5 is the exact
quotient, rounded once. -/
theorem div_five (n : Nat) (h : n < 2 ^ 53) :
    F64.div (F64.ofInt (n : Int)) (F64.ofInt 5) = F64.round false ((n : ℚ) / 5) := by
  have h5 : F64.ofInt 5 = .finite false 5 := by
    have := ofInt_natCast 5 (by norm_num)
    simpa using this
  rw [ofInt_natCast n h, h5]
  simp [F64.div]

theorem div_five_exact (k : Nat) (h : 5 * k < 2 ^ 53) :
    F64.div (F64.ofInt ((5 * k : Nat) : Int)) (F64.ofInt 5) = .finite false k := by
  rw [div_five _ h]
  have : ((5 * k : Nat) : ℚ) / 5 = (k : ℚ) := by push_cast; field_simp
  rw [this]
  exact round_natCast false k (by omega)

theorem run_recv_counts : ∀ (evs : List Nat) (m : Monitor),
    (m.run (evs.map MonitorStep.recv)).data.HandleLine
        = m.data.HandleLine + evs.count TypeHandleLine ∧
      (m.run (evs.map MonitorStep.recv)).data.ErrNum = m.data.ErrNum + evs.count TypeErrNum := by
  intro evs
  induction evs with
  | nil => intro m; simp [Monitor.run]
  | cons n rest ih =>
    intro m
    rw [List.map_cons, run_cons]
    obtain ⟨h1, h2⟩ := ih (m.step (.recv n))
    rw [h1, h2]
    by_cases hn1 : n = TypeErrNum
    · subst hn1
      simp [Monitor.step, TypeErrNum, TypeHandleLine]
      omega
    · by_cases hn0 : n = TypeHandleLine
      · subst hn0
        simp [Monitor.step, TypeErrNum, TypeHandleLine]
        omega
      · have c0 : List.count TypeHandleLine (n :: rest) = List.count TypeHandleLine rest := by
          rw [List.count_cons_of_ne (Ne.symm hn0)]
        have c1 : List.count TypeErrNum (n :: rest) = List.count TypeErrNum rest := by
          rw [List.count_cons_of_ne (Ne.symm hn1)]
        rw [c0, c1]
        simp [Monitor.step, hn1, hn0]

theorem pipelineEvents_counts : ∀ chunks : List Bytes,
    (pipelineEvents chunks).count TypeHandleLine = chunks.length ∧
      (pipelineEvents chunks).count TypeErrNum
        = chunks.countP (fun c => decide ((processLine (c.take (c.length - 1))).pushed = [])) := by
  intro chunks
  induction chunks with
  | nil => simp [pipelineEvents]
  | cons c rest ih =>
    obtain ⟨h1, h2⟩ := ih
    simp only [pipelineEvents, List.map_cons, List.flatten_cons, List.count_append] at h1 h2 ⊢
    rw [h1, h2]
    rcases processLine_cases (c.take (c.length - 1)) with h | ⟨m, h⟩
    · simp [readLine, Process, h, TypeHandleLine, TypeErrNum, List.countP_cons]
      omega
    · simp [readLine, Process, h, TypeHandleLine, TypeErrNum, List.countP_cons]
      omega

theorem sampleTotals_append : ∀ (pre rest : List MonitorStep) (m : Monitor),
    sampleTotals m.data.HandleLine (pre ++ rest)
      = sampleTotals m.data.HandleLine pre ++ sampleTotals (m.run pre).data.HandleLine rest := by
  intro pre rest
  induction pre with
  | nil => intro m; rfl
  | cons e pre ih =>
    intro m
    rw [run_cons]
    cases e with
    | recv n =>
      have h2 : (m.step (.recv n)).data.HandleLine
          = if n = TypeHandleLine then m.data.HandleLine + 1 else m.data.HandleLine := by
        simp only [Monitor.step, TypeErrNum, TypeHandleLine]
        split_ifs <;> first | rfl | omega
      simp only [List.cons_append, sampleTotals]
      rw [← h2]
      exact ih _
    | request a b =>
      have h2 : (m.step (.request a b)).data.HandleLine = m.data.HandleLine := by
        simp only [Monitor.step]; split_ifs <;> rfl
      simp only [List.cons_append, sampleTotals]
      have := ih (m.step (.request a b))
      rw [h2] at this
      exact this
    | tick =>
      have h2 : (m.step .tick).data.HandleLine = m.data.HandleLine := rfl
      have := ih (m.step .tick)
      rw [h2] at this
      show _ :: sampleTotals _ (pre ++ rest) = _
      rw [this]
      rfl

theorem starGreedy_complete {α : Type} (c : Cls) (k : Bytes → Option α) :
    ∀ (w rest : Bytes), (∀ b ∈ w, c.test b = true) → k rest ≠ none →
      starGreedy c (w ++ rest) k ≠ none := by
  intro w
  induction w with
  | nil =>
    intro rest _ hk
    cases rest with
    | nil => simpa [starGreedy] using hk
    | cons b bs =>
      simp only [List.nil_append, starGreedy]
      split_ifs
      · cases h : starGreedy c bs k with
        | some r => simp
        | none => simpa using hk
      · exact hk
  | cons x w ih =>
    intro rest hw hk
    have hx : c.test x = true := hw x (by simp)
    have hrec := ih rest (fun b hb => hw b (by simp [hb])) hk
    simp only [List.cons_append, starGreedy, hx, if_true]
    cases h : starGreedy c (w ++ rest) k with
    | some r => simp
    | none => exact absurd h hrec

theorem starLazy_complete {α : Type} (c : Cls) (k : Bytes → Option α) :
    ∀ (w rest : Bytes), (∀ b ∈ w, c.test b = true) → k rest ≠ none →
      starLazy c (w ++ rest) k ≠ none := by
  intro w
  induction w with
  | nil =>
    intro rest _ hk
    cases rest with
    | nil => simpa [starLazy] using hk
    | cons b bs =>
      simp only [List.nil_append, starLazy]
      cases h : k (b :: bs) with
      | some r => simp
      | none => exact absurd h hk
  | cons x w ih =>
    intro rest hw hk
    have hx : c.test x = true := hw x (by simp)
    have hrec := ih rest (fun b hb => hw b (by simp [hb])) hk
    simp only [List.cons_append, starLazy]
    cases h : k (x :: (w ++ rest)) with
    | some r => simp
    | none => simpa [hx] using hrec

/-- The matcher finds a match whenever there is one: if `r` matches a prefix of the input
and the continuation accepts what follows, the run succeeds. -/
theorem run_complete (r : Re) : ∀ (w rest : Bytes) (caps caps' : Caps)
    (k : Bytes → Caps → Option Caps), Re.Sem r w caps caps' → k rest caps' ≠ none →
      r.run (w ++ rest) caps k ≠ none := by
  induction r with
  | one c =>
    rintro w rest caps caps' k ⟨⟨b, rfl, hb⟩, rfl⟩ hk
    simpa [Re.run, hb] using hk
  | star greedy c =>
    rintro w rest caps caps' k ⟨hw, rfl⟩ hk
    cases greedy with
    | true => exact starGreedy_complete c _ w rest hw hk
    | false => exact starLazy_complete c _ w rest hw hk
  | cat a b iha ihb =>
    rintro w rest caps caps' k ⟨w1, w2, mid, rfl, h1, h2⟩ hk
    simp only [Re.run, List.append_assoc]
    exact iha w1 (w2 ++ rest) caps mid _ h1 (ihb w2 rest mid caps' k h2 hk)
  | cap i a iha =>
    rintro w rest caps caps' k ⟨mid, h1, rfl⟩ hk
    simp only [Re.run]
    apply iha w rest caps mid _ h1
    simpa using hk

theorem matches_sem (r : Re) : ∀ (w : Bytes) (caps : Caps), Re.Matches r w →
    ∃ caps', Re.Sem r w caps caps' := by
  induction r with
  | one c => intro w caps h; exact ⟨caps, h, rfl⟩
  | star g c => intro w caps h; exact ⟨caps, h, rfl⟩
  | cat a b iha ihb =>
    rintro w caps ⟨w1, w2, rfl, h1, h2⟩
    obtain ⟨mid, hm⟩ := iha w1 caps h1
    obtain ⟨caps', hc⟩ := ihb w2 mid h2
    exact ⟨caps', w1, w2, mid, rfl, hm, hc⟩
  | cap i a iha =>
    intro w caps h
    obtain ⟨mid, hm⟩ := iha w caps h
    exact ⟨mid.set i w, mid, hm, rfl⟩

theorem search_complete (r : Re) (n : Nat) : ∀ (pre w post : Bytes), Re.Matches r w →
    r.search n (pre ++ w ++ post) ≠ none := by
  intro pre w post hw
  have hat : r.matchAt n (w ++ post) ≠ none := by
    obtain ⟨caps', hs⟩ := matches_sem r w (List.replicate (n + 1) []) hw
    exact run_complete (Re.cap 0 r) w post _ _ _ ⟨caps', hs, rfl⟩ (by simp)
  induction pre with
  | nil =>
    simp only [List.nil_append]
    cases hwp : w ++ post with
    | nil => rw [hwp] at hat; simpa [Re.search] using hat
    | cons b bs =>
      rw [hwp] at hat
      simp only [Re.search]
      cases h : r.matchAt n (b :: bs) with
      | some c => simp
      | none => exact absurd h hat
  | cons x pre ih =>
    simp only [List.cons_append, Re.search]
    cases h : r.matchAt n (x :: (pre ++ w ++ post)) with
    | some c => simp
    | none => simpa [List.append_assoc] using ih

/-- `FindStringSubmatch` returns the nil slice exactly when no portion of the line matches
the pattern. -/
theorem submatch_eq_nil_iff (v : Bytes) :
    submatch v = [] ↔ ¬ ∃ pre w post, v = pre ++ w ++ post ∧ Re.Matches logPattern w := by
  constructor
  · rintro h ⟨pre, w, post, rfl, hw⟩
    have hs := search_complete logPattern logGroups pre w post hw
    cases hsr : logPattern.search logGroups (pre ++ w ++ post) with
    | none => exact hs hsr
    | some out =>
      have hne : submatch (pre ++ w ++ post) ≠ [] := by
        obtain ⟨p, u, q, caps1, -, hsem, hout⟩ := search_sound _ _ _ _ hsr
        have hl := Sem_length _ _ _ _ hsem
        intro hnil
        simp only [submatch, FindStringSubmatch, hsr, Option.getD_some] at hnil
        rw [hnil] at hout
        have : (List.set caps1 0 u).length = 0 := by rw [← hout]; rfl
        simp [hl, logGroups] at this
      exact hne h
  · intro h
    by_contra hne
    obtain ⟨pre, w, post, g1, g2, g3, g4, g5, g6, g7, g8, g9, g10, g11, g12, g13, hv, hw, -⟩ :=
      submatch_sound v hne
    exact h ⟨pre, w, post, hv, hw⟩

theorem roundHalfEven_err (n d : Nat) (hd : 0 < d) :
    |(roundHalfEven n d : ℚ) - (n : ℚ) / d| ≤ 1 / 2 := by
  have hdq : (0 : ℚ) < d := by exact_mod_cast hd
  have hdiv : (n : ℚ) / d = (n / d : Nat) + (n % d : Nat) / (d : ℚ) := by
    have h := Nat.div_add_mod n d
    have hq : (n : ℚ) = (d : ℚ) * (n / d : Nat) + (n % d : Nat) := by exact_mod_cast h.symm
    field_simp
    linarith
  have hr : n % d < d := Nat.mod_lt n hd
  have hrq : ((n % d : Nat) : ℚ) < d := by exact_mod_cast hr
  have hr0 : (0 : ℚ) ≤ ((n % d : Nat) : ℚ) := by positivity
  rw [hdiv, abs_le]
  unfold roundHalfEven
  split_ifs with h1 h2 h3
  · have : (2 : ℚ) * (n % d : Nat) < d := by exact_mod_cast h1
    have hfrac : ((n % d : Nat) : ℚ) / d < 1 / 2 := by
      rw [div_lt_iff₀ hdq]; linarith
    have hfrac0 : (0 : ℚ) ≤ ((n % d : Nat) : ℚ) / d := by positivity
    constructor <;> linarith
  · have : (d : ℚ) < 2 * (n % d : Nat) := by exact_mod_cast h2
    have hfrac : (1 : ℚ) / 2 < ((n % d : Nat) : ℚ) / d := by
      rw [lt_div_iff₀ hdq]; linarith
    have hfrac1 : ((n % d : Nat) : ℚ) / d < 1 := by
      rw [div_lt_iff₀ hdq]; linarith
    push_cast
    constructor <;> linarith
  · have heq : 2 * (n % d) = d := by omega
    have : (2 : ℚ) * (n % d : Nat) = d := by exact_mod_cast heq
    have hfrac : ((n % d : Nat) : ℚ) / d = 1 / 2 := by
      rw [div_eq_iff (ne_of_gt hdq)]; linarith
    rw [hfrac]
    constructor <;> linarith
  · have heq : 2 * (n % d) = d := by omega
    have : (2 : ℚ) * (n % d : Nat) = d := by exact_mod_cast heq
    have hfrac : ((n % d : Nat) : ℚ) / d = 1 / 2 := by
      rw [div_eq_iff (ne_of_gt hdq)]; linarith
    rw [hfrac]
    push_cast
    constructor <;> linarith

theorem floorLog2_spec (n d : Nat) (hn : 0 < n) (hd : 0 < d) :
    (2 : ℚ) ^ (floorLog2 n d) ≤ (n : ℚ) / d ∧ (n : ℚ) / d < 2 ^ (floorLog2 n d + 1) := by
  obtain ⟨ha1, ha2⟩ := ilog2_spec n hn
  obtain ⟨hb1, hb2⟩ := ilog2_spec d hd
  have hdq : (0 : ℚ) < d := by exact_mod_cast hd
  have ha1q : (2 : ℚ) ^ (ilog2 n) ≤ n := by exact_mod_cast ha1
  have ha2q : (n : ℚ) < 2 ^ (ilog2 n + 1) := by exact_mod_cast ha2
  have hb1q : (2 : ℚ) ^ (ilog2 d) ≤ d := by exact_mod_cast hb1
  have hb2q : (d : ℚ) < 2 ^ (ilog2 d + 1) := by exact_mod_cast hb2
  have h2 : (0 : ℚ) < 2 := by norm_num
  by_cases hsign : (0 : Int) ≤ (ilog2 n : Int) - (ilog2 d : Int)
  · obtain ⟨j, hj⟩ : ∃ j : Nat, ilog2 n = ilog2 d + j := ⟨ilog2 n - ilog2 d, by omega⟩
    have he0 : (ilog2 n : Int) - (ilog2 d : Int) = (j : Int) := by omega
    rw [hj] at ha1q ha2q
    by_cases htest : d * 2 ^ j ≤ n
    · have hE : floorLog2 n d = (j : Int) := by
        unfold floorLog2
        simp only [he0, Int.toNat_ofNat, htest, if_true]
        simp
      rw [hE]
      have htq : (d : ℚ) * 2 ^ j ≤ n := by exact_mod_cast htest
      constructor
      · rw [zpow_natCast, le_div_iff₀ hdq]; linarith
      · rw [div_lt_iff₀ hdq]
        have : (2 : ℚ) ^ ((j : Int) + 1) = 2 ^ (j + 1) := by
          rw [← zpow_natCast]; push_cast; rfl
        rw [this]
        have e1 : (2 : ℚ) ^ (ilog2 d + j + 1) = 2 ^ (j + 1) * 2 ^ (ilog2 d) := by ring
        have hp : (0 : ℚ) < 2 ^ (j + 1) := by positivity
        nlinarith
    · have hE : floorLog2 n d = (j : Int) - 1 := by
        unfold floorLog2
        simp only [he0, Int.toNat_ofNat, htest, if_false]
        simp
      rw [hE]
      have htq : (n : ℚ) < d * 2 ^ j := by
        have : n < d * 2 ^ j := by omega
        exact_mod_cast this
      constructor
      · rw [le_div_iff₀ hdq]
        have e0 : (2 : ℚ) ^ ((j : Int) - 1) = 2 ^ j / 2 := by
          rw [zpow_sub₀ (by norm_num), zpow_natCast, zpow_one]
        rw [e0]
        have e1 : (2 : ℚ) ^ (ilog2 d + 1) = 2 * 2 ^ (ilog2 d) := by ring
        have e2 : (2 : ℚ) ^ (ilog2 d + j) = 2 ^ j * 2 ^ (ilog2 d) := by ring
        have hp : (0 : ℚ) < 2 ^ j := by positivity
        have hp2 : (0 : ℚ) < 2 ^ (ilog2 d) := by positivity
        rw [e1] at hb2q
        rw [e2] at ha1q
        have : (2 : ℚ) ^ j / 2 * d < 2 ^ j * 2 ^ (ilog2 d) := by
          have : (2 : ℚ) ^ j / 2 * d = 2 ^ j * (d / 2) := by ring
          rw [this]
          apply mul_lt_mul_of_pos_left _ hp
          linarith
        linarith
      · rw [div_lt_iff₀ hdq]
        have : (2 : ℚ) ^ ((j : Int) - 1 + 1) = 2 ^ j := by
          rw [sub_add_cancel, zpow_natCast]
        rw [this]
        linarith
  · obtain ⟨j, hj⟩ : ∃ j : Nat, ilog2 d = ilog2 n + j := ⟨ilog2 d - ilog2 n, by omega⟩
    have he0 : (ilog2 n : Int) - (ilog2 d : Int) = -(j : Int) := by omega
    have hjneg : ¬ (0 : Int) ≤ -(j : Int) := by omega
    rw [hj] at hb1q hb2q
    have hp : (0 : ℚ) < 2 ^ j := by positivity
    have hp2 : (0 : ℚ) < 2 ^ (ilog2 n) := by positivity
    by_cases htest : d ≤ n * 2 ^ j
    · have hE : floorLog2 n d = -(j : Int) := by
        unfold floorLog2
        simp only [he0, hjneg, if_false, neg_neg, Int.toNat_ofNat, htest, if_true]
      rw [hE]
      have htq : (d : ℚ) ≤ n * 2 ^ j := by exact_mod_cast htest
      constructor
      · rw [le_div_iff₀ hdq, zpow_neg, zpow_natCast]
        rw [inv_mul_le_iff₀ hp]
        linarith
      · rw [div_lt_iff₀ hdq]
        have e0 : (2 : ℚ) ^ (-(j : Int) + 1) = 2 / 2 ^ j := by
          rw [zpow_add₀ (by norm_num), zpow_neg, zpow_natCast, zpow_one]; field_simp
        rw [e0, div_mul_eq_mul_div, lt_div_iff₀ hp]
        have e1 : (2 : ℚ) ^ (ilog2 n + 1) = 2 * 2 ^ (ilog2 n) := by ring
        have e2 : (2 : ℚ) ^ (ilog2 n + j) = 2 ^ j * 2 ^ (ilog2 n) := by ring
        rw [e1] at ha2q
        rw [e2] at hb1q
        have : (n : ℚ) * 2 ^ j < 2 * 2 ^ (ilog2 n) * 2 ^ j := by
          apply mul_lt_mul_of_pos_right ha2q hp
        nlinarith
    · have hE : floorLog2 n d = -(j : Int) - 1 := by
        unfold floorLog2
        simp only [he0, hjneg, if_false, neg_neg, Int.toNat_ofNat, htest]
      rw [hE]
      have htq : (n : ℚ) * 2 ^ j < d := by
        have : n * 2 ^ j < d := by omega
        exact_mod_cast this
      constructor
      · rw [le_div_iff₀ hdq]
        have e0 : (2 : ℚ) ^ (-(j : Int) - 1) = 1 / (2 ^ j * 2) := by
          rw [zpow_sub₀ (by norm_num), zpow_neg, zpow_natCast, zpow_one]; field_simp
        rw [e0, div_mul_eq_mul_div, one_mul, div_le_iff₀ (by positivity)]
        have e1 : (2 : ℚ) ^ (ilog2 n + j + 1) = 2 ^ (ilog2 n) * (2 ^ j * 2) := by ring
        rw [e1] at hb2q
        have : (2 : ℚ) ^ (ilog2 n) * (2 ^ j * 2) ≤ n * (2 ^ j * 2) := by
          apply mul_le_mul_of_nonneg_right ha1q (by positivity)
        linarith
      · rw [div_lt_iff₀ hdq]
        have : (2 : ℚ) ^ (-(j : Int) - 1 + 1) = (2 ^ j)⁻¹ := by
          rw [sub_add_cancel, zpow_neg, zpow_natCast]
        rw [this, inv_mul_eq_div, lt_div_iff₀ hp]
        linarith

/-- The integer that `F64.round` computes at the exponent `e` is within one half of the
scaled value. -/
theorem scaled_round (n d : Nat) (hd : 0 < d) (e : Int) :
    |((if 0 ≤ e then roundHalfEven n (d * 2 ^ e.toNat)
        else roundHalfEven (n * 2 ^ (-e).toNat) d : Nat) : ℚ) - (n : ℚ) / d / 2 ^ e| ≤ 1 / 2 := by
  have hdq : (0 : ℚ) < d := by exact_mod_cast hd
  by_cases he : 0 ≤ e
  · obtain ⟨k, rfl⟩ : ∃ k : Nat, e = (k : Int) := ⟨e.toNat, by omega⟩
    simp only [he, if_true, Int.toNat_ofNat, zpow_natCast]
    have := roundHalfEven_err n (d * 2 ^ k) (by positivity)
    have hx : (n : ℚ) / ((d * 2 ^ k : Nat) : ℚ) = (n : ℚ) / d / 2 ^ k := by
      push_cast; rw [div_div]
    rw [hx] at this
    exact this
  · obtain ⟨k, rfl⟩ : ∃ k : Nat, e = -(k : Int) := ⟨(-e).toNat, by omega⟩
    have hk : (- -(k : Int)).toNat = k := by simp
    simp only [he, if_false, hk, zpow_neg, zpow_natCast]
    have := roundHalfEven_err (n * 2 ^ k) d hd
    have hx : ((n * 2 ^ k : Nat) : ℚ) / d = (n : ℚ) / d / (2 ^ k)⁻¹ := by
      push_cast; field_simp
    rw [hx] at this
    exact this

/-- The rational that `F64.round` returns for the integer `m` at the exponent `e`. -/
theorem scaled_value (m : Nat) (e : Int) :
    (if 0 ≤ e then mkRat (m * 2 ^ e.toNat) 1 else mkRat m (2 ^ (-e).toNat))
      = (m : ℚ) * 2 ^ e := by
  by_cases he : 0 ≤ e
  · obtain ⟨k, rfl⟩ : ∃ k : Nat, e = (k : Int) := ⟨e.toNat, by omega⟩
    simp only [he, if_true, Int.toNat_ofNat, zpow_natCast]
    rw [Rat.mkRat_one]
    push_cast
    rfl
  · obtain ⟨k, rfl⟩ : ∃ k : Nat, e = -(k : Int) := ⟨(-e).toNat, by omega⟩
    have hk : (- -(k : Int)).toNat = k := by simp
    simp only [he, if_false, hk, zpow_neg, zpow_natCast]
    rw [Rat.mkRat_eq_div]
    push_cast
    rw [div_eq_mul_inv]

/-- On a positive rational, `F64.round` returns a value `m * 2^e` of the binary64 format
(`m ≤ 2^53`, `-1074 ≤ e ≤ 971`, `e` the exponent of the interval that holds `q`) within half
a unit in the last place `2^e` of `q`, or an infinity when `q` is at least
`2^1024 - 2^970`. -/
theorem round_spec (neg : Bool) (q : ℚ) (hq : 0 < q) :
    (∃ (m : Nat) (e : Int), F64.round neg q = .finite neg ((m : ℚ) * 2 ^ e) ∧
        m ≤ 2 ^ 53 ∧ -1074 ≤ e ∧ e ≤ 971 ∧ |(m : ℚ) * 2 ^ e - q| ≤ 2 ^ e / 2 ∧
        (e = -1074 ∨ (2 : ℚ) ^ (e + 52) ≤ q) ∧ q < 2 ^ (e + 53)) ∨
      (F64.round neg q = .inf neg ∧ (2 : ℚ) ^ 1024 - 2 ^ 970 ≤ q) := by
  have hnum : 0 < q.num := Rat.num_pos.mpr hq
  have hd : 0 < q.den := q.den_pos
  have hn : 0 < q.num.natAbs := Int.natAbs_pos.mpr (ne_of_gt hnum)
  have hn0 : q.num.natAbs ≠ 0 := ne_of_gt hn
  have hqeq : (q.num.natAbs : ℚ) / q.den = q := by
    have h2 : ((q.num.natAbs : Nat) : ℚ) = (q.num : ℚ) := by
      rw [Nat.cast_natAbs, abs_of_pos hnum]
    rw [h2]
    exact Rat.num_div_den q
  obtain ⟨hlo, hhi⟩ := floorLog2_spec q.num.natAbs q.den hn hd
  rw [hqeq] at hlo hhi
  have herr := scaled_round q.num.natAbs q.den hd
    (max (floorLog2 q.num.natAbs q.den - 52) (-1074))
  rw [hqeq] at herr
  unfold F64.round
  simp only [hn0, if_false]
  generalize floorLog2 q.num.natAbs q.den = E at *
  generalize he : max (E - 52) (-1074) = e at *
  generalize (if 0 ≤ e then roundHalfEven q.num.natAbs (q.den * 2 ^ e.toNat)
    else roundHalfEven (q.num.natAbs * 2 ^ (-e).toNat) q.den : Nat) = m at *
  have hpe : (0 : ℚ) < 2 ^ e := by positivity
  have he1 : -1074 ≤ e := by omega
  have he2 : E - 52 ≤ e := by omega
  -- the scaled value is below 2^53
  have hscaled : q / 2 ^ e < 2 ^ (53 : Nat) := by
    rw [div_lt_iff₀ hpe]
    have : (2 : ℚ) ^ (E + 1) ≤ 2 ^ (53 : Nat) * 2 ^ e := by
      rw [← zpow_natCast, ← zpow_add₀ (by norm_num)]
      apply zpow_le_zpow_right₀ (by norm_num)
      push_cast
      omega
    linarith
  have hm : m ≤ 2 ^ 53 := by
    have h1 : (m : ℚ) < 2 ^ (53 : Nat) + 1 := by
      have := (abs_le.mp herr).2
      linarith
    have h2 : m < 2 ^ 53 + 1 := by exact_mod_cast h1
    omega
  have hdist : |(m : ℚ) * 2 ^ e - q| ≤ 2 ^ e / 2 := by
    have : (m : ℚ) * 2 ^ e - q = ((m : ℚ) - q / 2 ^ e) * 2 ^ e := by
      field_simp
    rw [this, abs_mul, abs_of_pos hpe]
    calc |(m : ℚ) - q / 2 ^ e| * 2 ^ e ≤ 1 / 2 * 2 ^ e :=
          mul_le_mul_of_nonneg_right herr (le_of_lt hpe)
      _ = 2 ^ e / 2 := by ring
  by_cases hov : 971 < e ∨ (e = 971 ∧ m = 2 ^ 53)
  · right
    rw [if_pos hov]
    refine ⟨rfl, ?_⟩
    rcases hov with hbig | ⟨he971, hm53⟩
    · have hE : (1024 : Int) ≤ E := by omega
      have : (2 : ℚ) ^ (1024 : Int) ≤ 2 ^ E := zpow_le_zpow_right₀ (by norm_num) hE
      have h1024 : (2 : ℚ) ^ (1024 : Int) = 2 ^ (1024 : Nat) := by
        rw [← zpow_natCast]; rfl
      have hpos : (0 : ℚ) < 2 ^ (970 : Nat) := by positivity
      rw [h1024] at this
      linarith
    · subst he971
      have hlow := (abs_le.mp herr).2
      rw [hm53] at hlow
      have h971 : (2 : ℚ) ^ (971 : Int) = 2 ^ (971 : Nat) := by
        rw [← zpow_natCast]; rfl
      rw [h971] at hlow hpe
      have hq2 : ((2 : ℚ) ^ 53 - 1 / 2) * 2 ^ (971 : Nat) ≤ q := by
        have h3 : ((2 ^ 53 : Nat) : ℚ) - 1 / 2 ≤ q / 2 ^ (971 : Nat) := by linarith
        rw [le_div_iff₀ hpe] at h3
        push_cast at h3
        exact h3
      have : ((2 : ℚ) ^ 53 - 1 / 2) * 2 ^ (971 : Nat) = 2 ^ 1024 - 2 ^ 970 := by norm_num
      rw [this] at hq2
      exact hq2
  · left
    rw [if_neg hov]
    refine ⟨m, e, by rw [scaled_value], hm, he1, by omega, hdist, ?_, ?_⟩
    · by_cases hsub : e = -1074
      · left; exact hsub
      · right
        have : e = E - 52 := by omega
        rw [this]
        have : E - 52 + 52 = E := by ring
        rw [this]
        exact hlo
    · have : (2 : ℚ) ^ (E + 1) ≤ 2 ^ (e + 53) :=
        zpow_le_zpow_right₀ (by norm_num) (by omega)
      linarith

theorem search_first (r : Re) (n : Nat) : ∀ (s : Bytes) (out : Caps), r.search n s = some out →
    ∃ pre tail, s = pre ++ tail ∧ r.matchAt n tail = some out ∧
      ∀ p q, s = p ++ q → p.length < pre.length → r.matchAt n q = none := by
  intro s
  induction s with
  | nil =>
    intro out h
    exact ⟨[], [], rfl, by simpa [Re.search] using h, fun p q _ hlt => by simp at hlt⟩
  | cons b bs ih =>
    intro out h
    simp only [Re.search] at h
    cases hm : r.matchAt n (b :: bs) with
    | some caps =>
      rw [hm] at h
      simp only [Option.some.injEq] at h
      subst h
      exact ⟨[], b :: bs, rfl, hm, fun p q _ hlt => by simp at hlt⟩
    | none =>
      rw [hm] at h
      obtain ⟨pre, tail, hs, hat, hbefore⟩ := ih out h
      refine ⟨b :: pre, tail, by simp [hs], hat, ?_⟩
      intro p q hpq hlt
      cases p with
      | nil =>
        simp only [List.nil_append] at hpq
        rw [← hpq]
        exact hm
      | cons x p' =>
        simp only [List.cons_append, List.cons.injEq] at hpq
        exact hbefore p' q hpq.2 (by simpa using hlt)

/-- The match that `FindStringSubmatch` returns is leftmost: the pattern matches nothing
that starts before it. -/
theorem submatch_leftmost (v : Bytes) (h : submatch v ≠ []) :
    ∃ pre w post, v = pre ++ w ++ post ∧ (submatch v).getD 0 [] = w ∧
      Re.Matches logPattern w ∧
      ∀ p w' rest, v = p ++ w' ++ rest → p.length < pre.length →
        ¬ Re.Matches logPattern w' := by
  unfold submatch FindStringSubmatch at h ⊢
  cases hs : logPattern.search logGroups v with
  | none => simp [hs] at h
  | some out =>
    obtain ⟨pre, tail, hv, hat, hbefore⟩ := search_first _ _ _ _ hs
    simp only [Re.matchAt] at hat
    obtain ⟨w, post, caps', htail, ⟨mid, hsem, hmid⟩, hk⟩ := run_sound _ _ _ _ _ hat
    simp only [Option.some.injEq] at hk
    refine ⟨pre, w, post, by rw [hv, htail, List.append_assoc], ?_, Sem_matches _ _ _ _ hsem, ?_⟩
    · have hl := Sem_length _ _ _ _ hsem
      simp only [Option.getD_some, ← hk, hmid]
      rw [List.getD_eq_getElem?_getD, List.getElem?_set_self (by rw [hl]; simp [logGroups])]
      rfl
    · intro p w' rest hp hlt hw'
      have hnone := hbefore p (w' ++ rest) (by rw [hp, List.append_assoc]) hlt
      obtain ⟨caps2, hs2⟩ := matches_sem logPattern w' (List.replicate (logGroups + 1) []) hw'
      exact run_complete (Re.cap 0 logPattern) w' rest _ _ _ ⟨caps2, hs2, rfl⟩ (by simp) hnone

theorem Split_ne_nil (s : Bytes) (sep : Nat) : Split s sep ≠ [] := by
  cases s with
  | nil => simp [Split]
  | cons b bs =>
    unfold Split
    split_ifs
    · simp
    · cases Split bs sep <;> simp

theorem Split_line (line rest : Bytes) (h : 10 ∉ line) :
    Split (line ++ 10 :: rest) 10 = line :: Split rest 10 := by
  induction line with
  | nil => simp [Split]
  | cons b bs ih =>
    have hb : b ≠ 10 := fun e => h (by simp [e])
    have hbs : 10 ∉ bs := fun e => h (by simp [e])
    rw [List.cons_append, Split]
    simp only [hb, if_false]
    rw [ih hbs]

theorem terminatedLines_line (line rest : Bytes) (h : 10 ∉ line) :
    terminatedLines (line ++ 10 :: rest) = line :: terminatedLines rest := by
  unfold terminatedLines
  rw [Split_line line rest h]
  cases hs : Split rest 10 with
  | nil => exact absurd hs (Split_ne_nil rest 10)
  | cons x xs => simp [List.dropLast]

theorem takeWhile_append_dropWhile_newline (unread : Bytes) (h : unread.contains 10 = true) :
    unread = unread.takeWhile (· ≠ 10) ++ 10 :: (unread.dropWhile (· ≠ 10)).drop 1 := by
  induction unread with
  | nil => simp at h
  | cons b bs ih =>
    by_cases hb : b = 10
    · subst hb
      simp
    · have : bs.contains 10 = true := by
        simp only [List.contains_cons] at h
        simp only [Bool.or_eq_true, beq_iff_eq] at h
        rcases h with h | h
        · exact absurd h.symm hb
        · exact h
      simp only [ne_eq, hb, not_false_eq_true, decide_True, List.takeWhile_cons_of_pos,
        List.dropWhile_cons_of_pos, List.cons_append, List.cons.injEq, true_and]
      exact ih this

theorem not_mem_takeWhile_newline (unread : Bytes) : 10 ∉ unread.takeWhile (· ≠ 10) := by
  intro h
  have := List.mem_takeWhile_imp h
  simp at this

theorem contains_of_getLast (unread : Bytes) (h : unread.getLast? = some 10) :
    unread.contains 10 = true := by
  have := List.mem_of_getLast?_eq_some h
  simpa using this

theorem getLast_after_line (line rest : Bytes)
    (h : (line ++ 10 :: rest) = [] ∨ (line ++ 10 :: rest).getLast? = some 10) :
    rest = [] ∨ rest.getLast? = some 10 := by
  rcases h with h | h
  · simp at h
  · cases rest with
    | nil => left; rfl
    | cons x xs =>
      right
      rw [List.getLast?_append_of_ne_nil _ (by simp)] at h
      rw [List.getLast?_cons_cons] at h
      exact h

/-- The tail when appends stop at line ends. While every append ends at the end of a line,
no iteration of `Read` meets the end of the file in the middle of a line, and `Read`
pushes whole lines: the lines pushed are the first lines of the appended content, each
preceded by one `TypeHandleLine`. -/
theorem readFrom_whole_lines : ∀ (steps : List FileStep) (unread : Bytes),
    (unread = [] ∨ unread.getLast? = some 10) → WholeLineAppends steps →
      (readFrom unread steps).pushed <+: terminatedLines (unread ++ appended steps) ∧
      (readFrom unread steps).events
        = List.replicate (readFrom unread steps).pushed.length TypeHandleLine := by
  intro steps
  induction steps with
  | nil => intro unread _ _; simp [readFrom]
  | cons e rest ih =>
    intro unread hu hw
    cases e with
    | append content =>
      obtain ⟨hc, hrest⟩ := hw
      have hu2 : unread ++ content = [] ∨ (unread ++ content).getLast? = some 10 := by
        rcases hc with hc | hc
        · subst hc; simpa using hu
        · right
          have hne : content ≠ [] := by
            intro e; subst e; simp at hc
          rw [List.getLast?_append_of_ne_nil _ hne]
          exact hc
      have := ih (unread ++ content) hu2 hrest
      simpa [readFrom, appended, List.append_assoc] using this
    | poll =>
      have hrest : WholeLineAppends rest := hw
      by_cases hn : unread.contains 10 = true
      · have hsplit := takeWhile_append_dropWhile_newline unread hn
        have hnot := not_mem_takeWhile_newline unread
        have hu2 := getLast_after_line _ _ (by rw [← hsplit]; exact hu)
        obtain ⟨ih1, ih2⟩ := ih _ hu2 hrest
        have hterm : terminatedLines (unread ++ appended rest)
            = unread.takeWhile (· ≠ 10)
              :: terminatedLines ((unread.dropWhile (· ≠ 10)).drop 1 ++ appended rest) := by
          conv_lhs => rw [hsplit]
          rw [List.append_assoc, List.cons_append]
          exact terminatedLines_line _ _ hnot
        simp only [readFrom, readIter, hn, if_true, readLine, appended]
        constructor
        · rw [hterm]
          simp only [List.length_append, List.length_singleton, Nat.add_sub_cancel,
            List.take_left', List.singleton_append]
          exact (List.prefix_cons_inj _).mpr ih1
        · rw [ih2]
          simp [List.replicate_succ]
      · have hnil : unread = [] := by
          rcases hu with hu | hu
          · exact hu
          · exact absurd (contains_of_getLast unread hu) hn
        subst hnil
        have := ih [] (Or.inl rfl) hrest
        simpa [readFrom, readIter, appended] using this

theorem cutspace_length (s : Bytes) : (cutspace s).length ≤ s.length := by
  induction s with
  | nil => simp [cutspace]
  | cons b bs ih =>
    unfold cutspace
    split_ifs
    · simp only [List.length_cons]; omega
    · exact le_refl _

/-- The bound on the iterations of `skip` is never reached: any larger bound gives the
same result. -/
theorem skipFuel_enough : ∀ (n m : Nat) (value pre : Bytes), pre.length ≤ n → pre.length ≤ m →
    skipFuel n value pre = skipFuel m value pre := by
  intro n
  induction n with
  | zero =>
    intro m value pre hn _
    have : pre = [] := List.length_eq_zero.mp (by omega)
    subst this
    cases m <;> simp [skipFuel]
  | succ n ih =>
    intro m value pre hn hm
    cases pre with
    | nil => cases m <;> simp [skipFuel]
    | cons p ps =>
      cases m with
      | zero => simp at hm
      | succ m =>
        simp only [List.length_cons, Nat.add_le_add_iff_right] at hn hm
        unfold skipFuel
        by_cases hp : p = 32
        · subst hp
          have hc : cutspace (32 :: ps) = cutspace ps := by simp [cutspace]
          have hl := cutspace_length ps
          simp only [if_true, hc]
          cases value with
          | nil => exact ih m _ _ (by omega) (by omega)
          | cons v vs =>
            simp only
            split_ifs
            · rfl
            · exact ih m _ _ (by omega) (by omega)
        · simp only [hp, if_false]
          cases value with
          | nil => rfl
          | cons v vs =>
            simp only
            split_ifs
            · rfl
            · exact ih m _ _ hn hm

theorem cutspace_suffix (s : Bytes) : cutspace s <:+ s := by
  induction s with
  | nil => simp [cutspace]
  | cons b bs ih =>
    unfold cutspace
    split_ifs
    · exact ih.trans (List.suffix_cons b bs)
    · exact List.suffix_refl _

theorem skipFuel_suffix : ∀ (n : Nat) (value pre rest : Bytes),
    skipFuel n value pre = some rest → rest <:+ value := by
  intro n
  induction n with
  | zero =>
    intro value pre rest h
    cases pre with
    | nil => simp only [skipFuel, Option.some.injEq] at h; subst h; exact List.suffix_refl _
    | cons p ps => simp [skipFuel] at h
  | succ n ih =>
    intro value pre rest h
    cases pre with
    | nil => simp only [skipFuel, Option.some.injEq] at h; subst h; exact List.suffix_refl _
    | cons p ps =>
      unfold skipFuel at h
      by_cases hp : p = 32
      · simp only [hp, if_true] at h
        cases value with
        | nil => exact ih _ _ _ h
        | cons v vs =>
          simp only at h
          split_ifs at h
          exact (ih _ _ _ h).trans (cutspace_suffix _)
      · simp only [hp, if_false] at h
        cases value with
        | nil => simp at h
        | cons v vs =>
          simp only at h
          split_ifs at h
          exact (ih _ _ _ h).trans (List.suffix_cons v vs)

theorem skip_suffix (value pre rest : Bytes) (h : skip value pre = some rest) :
    rest <:+ value := skipFuel_suffix _ _ _ _ h

theorem getnum_suffix (value : Bytes) (fixed : Bool) (n : Nat) (rest : Bytes)
    (h : getnum value fixed = some (n, rest)) : rest <:+ value := by
  match value, h with
  | [], h => simp [getnum] at h
  | [a], h =>
    simp only [getnum] at h
    split_ifs at h
    simp only [Option.some.injEq, Prod.mk.injEq] at h
    rw [← h.2]
    exact List.suffix_cons a []
  | a :: b :: tail, h =>
    simp only [getnum] at h
    split_ifs at h
    · simp only [Option.some.injEq, Prod.mk.injEq] at h
      rw [← h.2]
      exact (List.suffix_cons b tail).trans (List.suffix_cons a _)
    · simp only [Option.some.injEq, Prod.mk.injEq] at h
      rw [← h.2]
      exact List.suffix_cons a _

theorem fracSecond_suffix (value : Bytes) : (fracSecond value).2 <:+ value := by
  match value with
  | [] => simp [fracSecond]
  | [a] => simp [fracSecond]
  | c :: d :: rest =>
    simp only [fracSecond]
    split_ifs
    · exact (List.dropWhile_suffix _).trans (List.suffix_cons c _)
    · exact List.suffix_refl _

/-- The literal tail of the layout: a value that ` +0000` consumes to its end ends in
`+0000`. -/
theorem skip_zone (value : Bytes) (h : skip value (ascii " +0000") = some []) :
    ascii "+0000" <:+ value := by
  have hz : ascii " +0000" = [32, 43, 48, 48, 48, 48] := by decide
  have hp : ascii "+0000" = [43, 48, 48, 48, 48] := by decide
  rw [hz] at h
  rw [hp]
  simp only [skip, List.length_cons, List.length_nil] at h
  cases value with
  | nil => simp [skipFuel, cutspace] at h
  | cons v vs =>
    unfold skipFuel at h
    simp only [if_true] at h
    split_ifs at h
    have hc : cutspace [32, 43, 48, 48, 48, 48] = [43, 48, 48, 48, 48] := by decide
    rw [hc] at h
    have hsuf := cutspace_suffix (v :: vs)
    generalize cutspace (v :: vs) = w at h hsuf
    refine List.IsSuffix.trans ?_ hsuf
    match w, h with
    | [], h => simp [skipFuel] at h
    | [a], h => simp [skipFuel] at h
    | [a, b], h => simp [skipFuel] at h
    | [a, b, c], h => simp [skipFuel] at h
    | [a, b, c, d], h => simp [skipFuel] at h
    | [a, b, c, d, e], h =>
      simp only [skipFuel] at h
      simp only [show (43 : Nat) ≠ 32 by decide, show (48 : Nat) ≠ 32 by decide, if_false] at h
      split_ifs at h with h1 h2 h3 h4 h5
      simp only [ne_eq, Decidable.not_not] at h1 h2 h3 h4 h5
      subst h1 h2 h3 h4 h5
      exact List.suffix_refl _
    | a :: b :: c :: d :: e :: f :: rest, h =>
      simp only [skipFuel] at h
      simp only [show (43 : Nat) ≠ 32 by decide, show (48 : Nat) ≠ 32 by decide, if_false] at h
      split_ifs at h
      simp at h

/-- The layout of `Process` only accepts timestamps whose text ends in `+0000`. -/
theorem ParseInLocation_zone (value : Bytes) (t : Time) (h : ParseInLocation value = some t) :
    ascii "+0000" <:+ value := by
  unfold ParseInLocation at h
  cases hd : parseDateChunks value with
  | none => simp [hd] at h
  | some r =>
    obtain ⟨day, month, year, rest⟩ := r
    simp only [hd] at h
    have hrest : rest <:+ value := by
      unfold parseDateChunks at hd
      cases h1 : getnum value true with
      | none => simp [h1] at hd
      | some r1 =>
        obtain ⟨d1, v1⟩ := r1
        simp only [h1] at hd
        cases h2 : skip v1 [47] with
        | none => simp [h2] at hd
        | some v2 =>
          simp only [h2] at hd
          cases h3 : lookup shortMonthNames v2 0 with
          | none => simp [h3] at hd
          | some r3 =>
            obtain ⟨m3, v3⟩ := r3
            simp only [h3] at hd
            cases h4 : skip v3 [47] with
            | none => simp [h4] at hd
            | some v4 =>
              simp only [h4] at hd
              split_ifs at hd
              simp only [Option.some.injEq, Prod.mk.injEq] at hd
              obtain ⟨-, -, -, hr⟩ := hd
              have s1 := getnum_suffix _ _ _ _ h1
              have s2 := skip_suffix _ _ _ h2
              have s3 : v3 <:+ v2 := by
                have : ∀ (tab : List Bytes) (i : Nat), lookup tab v2 i = some (m3, v3) →
                    v3 <:+ v2 := by
                  intro tab
                  induction tab with
                  | nil => intro i hl; simp [lookup] at hl
                  | cons x xs ihx =>
                    intro i hl
                    simp only [lookup] at hl
                    split_ifs at hl
                    · simp only [Option.some.injEq, Prod.mk.injEq] at hl
                      rw [← hl.2]
                      exact List.drop_suffix _ _
                    · exact ihx _ hl
                exact this _ _ h3
              have s4 := skip_suffix _ _ _ h4
              rw [← hr]
              exact (List.drop_suffix 4 v4).trans (s4.trans (s3.trans (s2.trans s1)))
    cases hc : parseClockChunks rest with
    | none => simp [hc] at h
    | some r =>
      clear h
      unfold parseClockChunks at hc
      cases h1 : skip rest [58] with
      | none => simp [h1] at hc
      | some v1 =>
        simp only [h1] at hc
        cases h2 : getnum v1 false with
        | none => simp [h2] at hc
        | some r2 =>
          obtain ⟨hour, v2⟩ := r2
          simp only [h2] at hc
          split_ifs at hc
          have sixtieth : ∀ (a : Bytes) (n : Nat) (b : Bytes),
              parseSixtieth a = some (n, b) → b <:+ a := by
            intro a n b hs
            unfold parseSixtieth at hs
            cases g1 : skip a [58] with
            | none => simp [g1] at hs
            | some a1 =>
              simp only [g1] at hs
              cases g2 : getnum a1 true with
              | none => simp [g2] at hs
              | some r =>
                obtain ⟨k, a2⟩ := r
                simp only [g2] at hs
                split_ifs at hs
                simp only [Option.some.injEq, Prod.mk.injEq] at hs
                rw [← hs.2]
                exact (getnum_suffix _ _ _ _ g2).trans (skip_suffix _ _ _ g1)
          cases h3 : parseSixtieth v2 with
          | none => simp [h3] at hc
          | some r3 =>
            obtain ⟨min, v3⟩ := r3
            simp only [h3] at hc
            cases h4 : parseSixtieth v3 with
            | none => simp [h4] at hc
            | some r4 =>
              obtain ⟨sec, v4⟩ := r4
              simp only [h4] at hc
              cases h5 : skip (fracSecond v4).2 (ascii " +0000") with
              | none => simp [h5] at hc
              | some tail =>
                simp only [h5] at hc
                split_ifs at hc with htail
                simp only [ne_eq, Decidable.not_not] at htail
                subst htail
                have z := skip_zone _ h5
                exact z.trans ((fracSecond_suffix v4).trans ((sixtieth _ _ _ h4).trans
                  ((sixtieth _ _ _ h3).trans ((getnum_suffix _ _ _ _ h2).trans
                    ((skip_suffix _ _ _ h1).trans hrest)))))

set_option maxRecDepth 1000000 in
/-- Values of `F64.round`: 0.1 and 0.2; the ties `2^53 + 1` (down to the even `2^53`) and
`2^53 + 3` (up to the even `2^53 + 4`); the largest finite value, the first value that
overflows; half the smallest subnormal (a tie, down to 0) and three quarters of it. -/
theorem round_examples :
    F64.round false (1 / 10) = .finite false (3602879701896397 / 2 ^ 55) ∧
      F64.round false (2 / 10) = .finite false (3602879701896397 / 2 ^ 54) ∧
      F64.round false (2 ^ 53 + 1) = .finite false (2 ^ 53) ∧
      F64.round true (2 ^ 53 + 3) = .finite true (2 ^ 53 + 4) ∧
      F64.round false (2 ^ 1024 - 2 ^ 970 - 1) = .finite false (2 ^ 1024 - 2 ^ 971) ∧
      F64.round false (2 ^ 1024 - 2 ^ 970) = .inf false ∧
      F64.round false (1 / 2 ^ 1075) = .finite false 0 ∧
      F64.round false (3 / 2 ^ 1076) = .finite false (1 / 2 ^ 1074) := by
  refine ⟨by decide!, by decide!, by decide!, by decide!, by decide!, by decide!, by decide!,
    by decide!⟩

/-! ### The claims -/

set_option maxRecDepth 1000000 in
/-- C1. On the example line of the comment in `Process`, the loop body sends no event and
pushes exactly one `Message`: wall-clock time 2018-03-04 13:49:52 in the parser's zone,
`BytesSent` 2133, `Method` "GET", `Path` "/foo", `Scheme` "http", `Status` "200",
`UpstreamTime` the float64 nearest to 1.005 and `RequestTime` the float64 nearest to 1.854
(the values of Go's constants `1.005` and `1.854`, here with their exact values). -/
theorem c1_sample_line :
    processLine sampleLine =
      ⟨[], [{ TimeLocal := ⟨2018, 3, 4, 13, 49, 52, 0⟩, BytesSent := 2133,
              Path := ascii "/foo", Method := ascii "GET", Scheme := ascii "http",
              Status := ascii "200",
              UpstreamTime := F64.round false (1005 / 1000),
              RequestTime := F64.round false (1854 / 1000) }]⟩ ∧
      F64.round false (1005 / 1000) = .finite false (4526117625507348 / 2 ^ 52) ∧
      F64.round false (1854 / 1000) = .finite false (8349673709144900 / 2 ^ 52) := by
  refine ⟨by decide!, by decide!, by decide!⟩

set_option maxRecDepth 1000000 in
/-- C2 (as stated, refuted). The example line with zone offset `+0800` is matched by the
pattern from its first to its last byte and its request line has three tokens, yet
`Process` pushes no `Message` for it and counts an error. -/
theorem c2_counterexample :
    Re.Matches logPattern zoneLine ∧
      Split ((submatch zoneLine).getD 6 []) 32 =
        [ascii "GET", ascii "/foo?query=t", ascii "HTTP/1.0"] ∧
      processLine zoneLine = ⟨[TypeErrNum], []⟩ := by
  refine ⟨?_, by decide!, by decide!⟩
  have hne : submatch zoneLine ≠ [] := by decide!
  obtain ⟨pre, w, post, g1, g2, g3, g4, g5, g6, g7, g8, g9, g10, g11, g12, g13, -, hw, hret, -⟩ :=
    submatch_sound zoneLine hne
  have h0 : (submatch zoneLine).getD 0 [] = zoneLine := by decide!
  rw [hret] at h0
  simp only [List.getD_cons_zero] at h0
  rw [← h0]
  exact hw

/-- C2 (amended). When the pattern finds a match in the line, the captured timestamp parses
with the layout (whose zone text is the literal `+0000`), the captured request line splits
on single spaces into exactly three tokens and `url.Parse` accepts the target, `Process`
sends no event and pushes exactly one `Message`: its `Method` is the first token, its
`Scheme` and `Status` are the texts of groups 5 and 7, and its `Path` is the path of the
parsed target, which for a target in origin form without fragment, escape or control byte
is the target up to its first `?`. A timestamp that parses ends in `+0000`. -/
theorem c2_fields (v : Bytes) (t : Time) (method target proto path : Bytes)
    (hm : submatch v ≠ [])
    (ht : ParseInLocation ((submatch v).getD 4 []) = some t)
    (hs : Split ((submatch v).getD 6 []) 32 = [method, target, proto])
    (hu : urlParsePath target = some path) :
    (processLine v).events = [] ∧
      ∃ m, (processLine v).pushed = [m] ∧ m.Method = method ∧
        m.Scheme = (submatch v).getD 5 [] ∧ m.Status = (submatch v).getD 7 [] ∧
        m.Path = path ∧ (PlainTarget target → m.Path = target.takeWhile (· ≠ 63)) ∧
        ascii "+0000" <:+ (submatch v).getD 4 [] := by
  have hlen : (Split ((submatch v).getD 6 []) 32).length = 3 := by rw [hs]; rfl
  have hu2 : urlParsePath ((Split ((submatch v).getD 6 []) 32).getD 1 []) = some path := by
    rw [hs]; exact hu
  rw [processLine_ok v t path hm ht hlen hu2]
  refine ⟨rfl, _, rfl, ?_, rfl, rfl, rfl, ?_, ParseInLocation_zone _ t ht⟩
  · rw [hs]; rfl
  · intro hp
    have := urlParsePath_plain target hp
    rw [hu] at this
    exact Option.some.inj this

set_option maxRecDepth 1000000 in
/-- The amended C2 at the example line. -/
theorem c2_fields_witness :
    (processLine sampleLine).events = [] ∧
      ∃ m, (processLine sampleLine).pushed = [m] ∧ m.Method = ascii "GET" ∧
        m.Scheme = (submatch sampleLine).getD 5 [] ∧
        m.Status = (submatch sampleLine).getD 7 [] ∧
        m.Path = ascii "/foo" ∧
        (PlainTarget (ascii "/foo?query=t") →
          m.Path = (ascii "/foo?query=t").takeWhile (· ≠ 63)) ∧
        ascii "+0000" <:+ (submatch sampleLine).getD 4 [] :=
  c2_fields sampleLine ⟨2018, 3, 4, 13, 49, 52, 0⟩ (ascii "GET") (ascii "/foo?query=t")
    (ascii "HTTP/1.0") (ascii "/foo") (by decide!) (by decide!) (by decide!) (by decide!)

/-- C3. When the pattern finds no match in a line, that is when no portion of the line
matches it, `FindStringSubmatch` returns the nil slice: the loop body sends exactly one
`TypeErrNum` and pushes nothing, the listener's `ErrNum` grows by exactly one (and its
`HandleLine` not at all), and `Process` goes on with the lines that follow. -/
theorem c3_no_match (v : Bytes) (rest : List Bytes) (m : Monitor)
    (h : ¬ ∃ pre w post, v = pre ++ w ++ post ∧ Re.Matches logPattern w) :
    submatch v = [] ∧ processLine v = ⟨[TypeErrNum], []⟩ ∧
      (m.run ((processLine v).events.map MonitorStep.recv)).data.ErrNum = m.data.ErrNum + 1 ∧
      (m.run ((processLine v).events.map MonitorStep.recv)).data.HandleLine
        = m.data.HandleLine ∧
      (Process (v :: rest)).events = TypeErrNum :: (Process rest).events ∧
      (Process (v :: rest)).pushed = (Process rest).pushed := by
  have hnil := (submatch_eq_nil_iff v).mpr h
  have hp := processLine_nomatch v hnil
  refine ⟨hnil, hp, ?_, ?_, ?_, ?_⟩
  · rw [hp]; simp [Monitor.run, Monitor.step]
  · rw [hp]; simp [Monitor.run, Monitor.step]
  · simp [Process, hp]
  · simp [Process, hp]

set_option maxRecDepth 1000000 in
/-- C3 at a line without a match, followed by the example line. -/
theorem c3_no_match_witness :
    submatch (ascii "not a log line") = [] ∧
      processLine (ascii "not a log line") = ⟨[TypeErrNum], []⟩ ∧
      (Monitor.init.run ((processLine (ascii "not a log line")).events.map
        MonitorStep.recv)).data.ErrNum = Monitor.init.data.ErrNum + 1 ∧
      (Monitor.init.run ((processLine (ascii "not a log line")).events.map
        MonitorStep.recv)).data.HandleLine = Monitor.init.data.HandleLine ∧
      (Process (ascii "not a log line" :: [sampleLine])).events
        = TypeErrNum :: (Process [sampleLine]).events ∧
      (Process (ascii "not a log line" :: [sampleLine])).pushed
        = (Process [sampleLine]).pushed :=
  c3_no_match (ascii "not a log line") [sampleLine] Monitor.init
    ((submatch_eq_nil_iff _).mp (by decide!))

set_option maxRecDepth 1000000 in
/-- C4 (as stated, refuted). For the example line with text before and after it the pattern
does not match the whole line, yet `Process` pushes the same `Message` as for the example
line alone. -/
theorem c4_counterexample :
    ¬ Re.Matches logPattern wrappedLine ∧
      (processLine wrappedLine).pushed ≠ [] ∧ processLine wrappedLine = processLine sampleLine := by
  refine ⟨?_, by decide!, by decide!⟩
  intro h
  obtain ⟨b, rest, hw, hb⟩ := matches_head _ h
  have h1 : wrappedLine.head? = some 106 := by decide!
  rw [hw] at h1
  simp only [List.head?_cons, Option.some.injEq] at h1
  subst h1
  exact absurd hb (by decide)

/-- C4 (amended). `Process` pushes a `Message` for a line only if some contiguous portion
of the line matches the pattern from its first to its last byte; the text before and
after that portion is not examined. -/
theorem c4_portion_matches (v : Bytes) (h : (processLine v).pushed ≠ []) :
    ∃ pre w post, v = pre ++ w ++ post ∧ Re.Matches logPattern w := by
  have hm : submatch v ≠ [] := by
    intro hnil
    rw [processLine_nomatch v hnil] at h
    exact h rfl
  obtain ⟨pre, w, post, g1, g2, g3, g4, g5, g6, g7, g8, g9, g10, g11, g12, g13, hv, hw, -⟩ :=
    submatch_sound v hm
  exact ⟨pre, w, post, hv, hw⟩

set_option maxRecDepth 1000000 in
/-- The amended C4 at the example line with text before and after it. -/
theorem c4_portion_matches_witness :
    ∃ pre w post, wrappedLine = pre ++ w ++ post ∧ Re.Matches logPattern w :=
  c4_portion_matches wrappedLine (by decide!)

set_option maxRecDepth 1000000 in
/-- C5 (as stated, refuted). With the byte count `9223372036854775808`, which `Atoi` cannot
parse as an `int` (`ErrRange`), `Process` pushes a `Message` whose `BytesSent` is
`9223372036854775807`, not 0. -/
theorem c5_counterexample :
    (submatch bigBytesLine).getD 8 [] = ascii "9223372036854775808" ∧
      (Atoi ((submatch bigBytesLine).getD 8 [])).2 = some .ErrRange ∧
      (processLine bigBytesLine).events = [] ∧
      (processLine bigBytesLine).pushed.map (·.BytesSent) = [9223372036854775807] ∧
      (processLine bigBytesLine).pushed.map (·.BytesSent) ≠ [0] := by
  refine ⟨by decide!, by decide!, by decide!, by decide!, by decide!⟩

/-- C5 (amended). When the pattern finds a match and the timestamp, the request line and
the target are accepted, `Process` pushes exactly one `Message` and sends no event,
whatever the numeric texts are. A latency whose text is not a number (`ErrSyntax`) is
stored as 0 and one too large for a float64 (`ErrRange`) as an infinity. The byte count,
all digits, has no syntax error: it is stored as its value, or as `2^63 - 1` when it does
not fit an `int`. -/
theorem c5_numeric_fields (v : Bytes) (t : Time) (path : Bytes) (hm : submatch v ≠ [])
    (ht : ParseInLocation ((submatch v).getD 4 []) = some t)
    (hs : (Split ((submatch v).getD 6 []) 32).length = 3)
    (hu : urlParsePath ((Split ((submatch v).getD 6 []) 32).getD 1 []) = some path) :
    (processLine v).events = [] ∧
      ∃ m, (processLine v).pushed = [m] ∧
        ((ParseFloat ((submatch v).getD 12 [])).2 = some .ErrSyntax → m.UpstreamTime = F64.zero) ∧
        ((ParseFloat ((submatch v).getD 13 [])).2 = some .ErrSyntax → m.RequestTime = F64.zero) ∧
        ((ParseFloat ((submatch v).getD 12 [])).2 = some .ErrRange →
          ∃ sign, m.UpstreamTime = F64.inf sign) ∧
        ((ParseFloat ((submatch v).getD 13 [])).2 = some .ErrRange →
          ∃ sign, m.RequestTime = F64.inf sign) ∧
        (Atoi ((submatch v).getD 8 [])).2 ≠ some .ErrSyntax ∧
        ((Atoi ((submatch v).getD 8 [])).2 = none →
          m.BytesSent = (digitsVal ((submatch v).getD 8 []) : Int)) ∧
        ((Atoi ((submatch v).getD 8 [])).2 = some .ErrRange → m.BytesSent = 2 ^ 63 - 1) := by
  rw [processLine_ok v t path hm ht hs hu]
  obtain ⟨⟨h8ne, h8⟩, -, -⟩ := latency_text_alphabet v hm
  have hatoi := Atoi_digits _ h8ne (fun b hb => clsDigit_test b (h8 b hb))
  refine ⟨rfl, _, rfl, ParseFloat_errSyntax _, ParseFloat_errSyntax _, ParseFloat_errRange _,
    ParseFloat_errRange _, ?_, ?_, ?_⟩
  · rcases hatoi with h | h <;> rw [h] <;> simp
  · rcases hatoi with h | h <;> rw [h] <;> simp
  · rcases hatoi with h | h <;> rw [h] <;> simp

set_option maxRecDepth 1000000 in
/-- The amended C5 at a line whose three numeric texts are all unparsable. -/
theorem c5_numeric_fields_witness :
    (processLine oddNumbersLine).events = [] ∧
      ∃ m, (processLine oddNumbersLine).pushed = [m] ∧
        ((ParseFloat ((submatch oddNumbersLine).getD 12 [])).2 = some .ErrSyntax →
          m.UpstreamTime = F64.zero) ∧
        ((ParseFloat ((submatch oddNumbersLine).getD 13 [])).2 = some .ErrSyntax →
          m.RequestTime = F64.zero) ∧
        ((ParseFloat ((submatch oddNumbersLine).getD 12 [])).2 = some .ErrRange →
          ∃ sign, m.UpstreamTime = F64.inf sign) ∧
        ((ParseFloat ((submatch oddNumbersLine).getD 13 [])).2 = some .ErrRange →
          ∃ sign, m.RequestTime = F64.inf sign) ∧
        (Atoi ((submatch oddNumbersLine).getD 8 [])).2 ≠ some .ErrSyntax ∧
        ((Atoi ((submatch oddNumbersLine).getD 8 [])).2 = none →
          m.BytesSent = (digitsVal ((submatch oddNumbersLine).getD 8 []) : Int)) ∧
        ((Atoi ((submatch oddNumbersLine).getD 8 [])).2 = some .ErrRange →
          m.BytesSent = 2 ^ 63 - 1) :=
  c5_numeric_fields oddNumbersLine ⟨2018, 3, 4, 13, 49, 52, 0⟩ (ascii "/foo") (by decide!)
    (by decide!) (by decide!) (by decide!)

set_option maxRecDepth 1000000 in
/-- C6. For every sequence of chunks read and every order in which the listener receives
the events sent along the pipeline, the snapshot has `HandleLine` equal to the number of
lines read and `ErrNum` equal to the number of lines for which `Process` pushed no
`Message`; the example line followed by a line without a match gives `HandleLine` 2 and
`ErrNum` 1. -/
theorem c6_counts (chunks : List Bytes) (evs : List Nat) (r w : Nat)
    (hperm : evs.Perm (pipelineEvents chunks)) :
    ((Monitor.init.run (evs.map MonitorStep.recv)).snapshot r w).HandleLine = chunks.length ∧
      ((Monitor.init.run (evs.map MonitorStep.recv)).snapshot r w).ErrNum
        = chunks.countP (fun c => decide ((processLine (c.take (c.length - 1))).pushed = [])) ∧
      ((Monitor.init.run ((pipelineEvents [sampleLine ++ [10], ascii "not a log line\n"]).map
          MonitorStep.recv)).snapshot 0 0).HandleLine = 2 ∧
      ((Monitor.init.run ((pipelineEvents [sampleLine ++ [10], ascii "not a log line\n"]).map
          MonitorStep.recv)).snapshot 0 0).ErrNum = 1 := by
  obtain ⟨h1, h2⟩ := run_recv_counts evs Monitor.init
  obtain ⟨c1, c2⟩ := pipelineEvents_counts chunks
  have hs : ∀ (m : Monitor), (m.snapshot r w).HandleLine = m.data.HandleLine ∧
      (m.snapshot r w).ErrNum = m.data.ErrNum := by
    intro m
    simp only [Monitor.snapshot, Monitor.step]
    split_ifs <;> exact ⟨rfl, rfl⟩
  refine ⟨?_, ?_, by decide!, by decide!⟩
  · rw [(hs _).1, h1, hperm.count_eq, c1]
    simp [Monitor.init]
  · rw [(hs _).2, h2, hperm.count_eq, c2]
    simp [Monitor.init]

set_option maxRecDepth 1000000 in
/-- C6 at the example line followed by a line without a match, the error event arriving
before the second `TypeHandleLine`. -/
theorem c6_counts_witness :
    ((Monitor.init.run (([0, 1, 0] : List Nat).map MonitorStep.recv)).snapshot 3 4).HandleLine
        = ([sampleLine ++ [10], ascii "not a log line\n"] : List Bytes).length ∧
      ((Monitor.init.run (([0, 1, 0] : List Nat).map MonitorStep.recv)).snapshot 3 4).ErrNum
        = ([sampleLine ++ [10], ascii "not a log line\n"] : List Bytes).countP
            (fun c => decide ((processLine (c.take (c.length - 1))).pushed = [])) ∧
      ((Monitor.init.run ((pipelineEvents [sampleLine ++ [10], ascii "not a log line\n"]).map
          MonitorStep.recv)).snapshot 0 0).HandleLine = 2 ∧
      ((Monitor.init.run ((pipelineEvents [sampleLine ++ [10], ascii "not a log line\n"]).map
          MonitorStep.recv)).snapshot 0 0).ErrNum = 1 :=
  c6_counts [sampleLine ++ [10], ascii "not a log line\n"] [0, 1, 0] 3 4 (by decide!)

set_option maxRecDepth 1000000 in
/-- C7 (as stated, refuted). With totals 0 and 1 at two consecutive ticks the reported
`Tps` is the float64 `float64(1)/5`, which is 3602879701896397 / 2^54 and not the exact
quotient 1/5: no float64 equals 1/5. -/
theorem c7_counterexample :
    sampleTotals 0 zeroThenOne = [0, 1] ∧
      ((Monitor.init.run zeroThenOne).snapshot 0 0).Tps
        = .finite false (3602879701896397 / 18014398509481984) ∧
      ((Monitor.init.run zeroThenOne).snapshot 0 0).Tps.toRat? ≠ some ((1 - 0) / 5) := by
  refine ⟨by decide!, by decide!, by decide!⟩

set_option maxRecDepth 1000000 in
/-- C7 (amended). For every sequence of listener receptions, sampler ticks and requests,
the `Tps` that a request then reports is 0 when fewer than two ticks have occurred;
otherwise it is the float64 quotient `float64(newer - older) / 5` of the totals sampled
at the two most recent ticks, where `older ≤ newer`. For a difference below `2^53` that is
the exact quotient rounded to the nearest float64, and it is the exact quotient when the
difference is a multiple of 5. With totals 100 then 150 the reported `Tps` is 10. -/
theorem c7_tps (steps : List MonitorStep) (r w : Nat) :
    (steps.countP MonitorStep.isTick < 2 →
        ((Monitor.init.run steps).snapshot r w).Tps = F64.zero) ∧
      (2 ≤ steps.countP MonitorStep.isTick →
        ∃ older newer : Int,
          (sampleTotals 0 steps).getD (steps.countP MonitorStep.isTick - 2) 0 = older ∧
          (sampleTotals 0 steps).getD (steps.countP MonitorStep.isTick - 1) 0 = newer ∧
          older ≤ newer ∧
          ((Monitor.init.run steps).snapshot r w).Tps
            = F64.div (F64.ofInt (newer - older)) (F64.ofInt 5) ∧
          (newer - older < 2 ^ 53 →
            ((Monitor.init.run steps).snapshot r w).Tps
              = F64.round false (((newer - older : Int) : ℚ) / 5)) ∧
          (∀ k : Nat, newer - older = 5 * (k : Int) → 5 * k < 2 ^ 53 →
            ((Monitor.init.run steps).snapshot r w).Tps = .finite false k)) ∧
      sampleTotals 0 hundredThenFifty = [100, 150] ∧
      ((Monitor.init.run hundredThenFifty).snapshot 0 0).Tps = .finite false 10 := by
  have hlen := sampleTotals_length steps 0
  have hrun : (Monitor.init.run steps).tpsSli = lastTwo (sampleTotals 0 steps) := by
    have := run_tpsSli steps Monitor.init (by simp [Monitor.init])
    simpa [Monitor.init] using this
  have hord := run_ordered steps Monitor.init init_ordered
  refine ⟨?_, ?_, by decide!, by decide!⟩
  · intro hlt
    have hshort : ¬ 2 ≤ (Monitor.init.run steps).tpsSli.length := by
      rw [hrun, lastTwo_length, hlen]; omega
    have hunset := run_tps_unset steps Monitor.init (by simp [Monitor.init])
      (by simp only [Monitor.init, List.length_nil, zero_add]; rw [hlen]; exact hlt)
    simp only [Monitor.snapshot, Monitor.step, hshort, if_false]
    rw [hunset]
    rfl
  · intro h2
    have htwo := lastTwo_two (sampleTotals 0 steps) (by rw [hlen]; exact h2)
    rw [hlen] at htwo
    rw [htwo] at hrun
    refine ⟨_, _, rfl, rfl, ?_, ?_⟩
    · have hp := hord.2.2
      rw [hrun] at hp
      simpa using hp
    · have hle : (sampleTotals 0 steps).getD (steps.countP MonitorStep.isTick - 2) 0
          ≤ (sampleTotals 0 steps).getD (steps.countP MonitorStep.isTick - 1) 0 := by
        have hp := hord.2.2
        rw [hrun] at hp
        simpa using hp
      have hlong : 2 ≤ (Monitor.init.run steps).tpsSli.length := by rw [hrun]; simp
      have htps : ((Monitor.init.run steps).snapshot r w).Tps
          = F64.div (F64.ofInt ((sampleTotals 0 steps).getD (steps.countP MonitorStep.isTick - 1) 0
              - (sampleTotals 0 steps).getD (steps.countP MonitorStep.isTick - 2) 0))
            (F64.ofInt 5) := by
        simp only [Monitor.snapshot, Monitor.step, hlong, if_true]
        rw [hrun]
        rfl
      generalize (sampleTotals 0 steps).getD (steps.countP MonitorStep.isTick - 1) 0 = b at *
      generalize (sampleTotals 0 steps).getD (steps.countP MonitorStep.isTick - 2) 0 = a at *
      obtain ⟨n, hn⟩ : ∃ n : Nat, b - a = (n : Int) := ⟨(b - a).toNat, by omega⟩
      refine ⟨htps, ?_, ?_⟩
      · intro hsmall
        rw [htps, hn]
        rw [div_five n (by rw [hn] at hsmall; exact_mod_cast hsmall)]
        simp
      · intro k hk hksmall
        rw [htps, hk]
        exact_mod_cast div_five_exact k hksmall

/-- C8. When the pattern finds a match but the timestamp does not parse with the layout, or
the request line does not split on single spaces into exactly three tokens, or `url.Parse`
rejects the target, the loop body sends exactly one `TypeErrNum` and pushes nothing, and
`Process` goes on with the lines that follow. -/
theorem c8_field_errors (v : Bytes) (rest : List Bytes) (hm : submatch v ≠ [])
    (hbad : ParseInLocation ((submatch v).getD 4 []) = none ∨
      (Split ((submatch v).getD 6 []) 32).length ≠ 3 ∨
      urlParsePath ((Split ((submatch v).getD 6 []) 32).getD 1 []) = none) :
    processLine v = ⟨[TypeErrNum], []⟩ ∧
      (Process (v :: rest)).events = TypeErrNum :: (Process rest).events ∧
      (Process (v :: rest)).pushed = (Process rest).pushed := by
  have _ := hm
  have hp : processLine v = ⟨[TypeErrNum], []⟩ := by
    rcases hbad with h | h | h
    · exact processLine_badTime v h
    · exact processLine_badSplit v h
    · exact processLine_badUrl v h
  exact ⟨hp, by simp [Process, hp], by simp [Process, hp]⟩

set_option maxRecDepth 1000000 in
/-- C8 at three lines, one for each kind of error, each followed by the example line. -/
theorem c8_field_errors_witness :
    (processLine zoneLine = ⟨[TypeErrNum], []⟩ ∧
      (Process (zoneLine :: [sampleLine])).events = TypeErrNum :: (Process [sampleLine]).events ∧
      (Process (zoneLine :: [sampleLine])).pushed = (Process [sampleLine]).pushed) ∧
    (processLine fourTokenLine = ⟨[TypeErrNum], []⟩ ∧
      (Process (fourTokenLine :: [sampleLine])).events
        = TypeErrNum :: (Process [sampleLine]).events ∧
      (Process (fourTokenLine :: [sampleLine])).pushed = (Process [sampleLine]).pushed) ∧
    (processLine badEscapeLine = ⟨[TypeErrNum], []⟩ ∧
      (Process (badEscapeLine :: [sampleLine])).events
        = TypeErrNum :: (Process [sampleLine]).events ∧
      (Process (badEscapeLine :: [sampleLine])).pushed = (Process [sampleLine]).pushed) :=
  ⟨c8_field_errors zoneLine [sampleLine] (by decide!) (Or.inl (by decide!)),
   c8_field_errors fourTokenLine [sampleLine] (by decide!) (Or.inr (Or.inl (by decide!))),
   c8_field_errors badEscapeLine [sampleLine] (by decide!) (Or.inr (Or.inr (by decide!)))⟩

set_option maxRecDepth 1000000 in
/-- C9. After any sequence of steps that holds `n` ticks, `tpsSli` has length `min n 2`
and is the list of the `HandleLine` totals sampled at the ticks with its entries before
the last two removed: for `n ≥ 2`, the totals of ticks `n - 1` and `n`, in that order.
The total sampled at a tick is the value of `HandleLine` when the tick occurs. After
ticks at totals 100, 150 and 151 the history is 150, 151. -/
theorem c9_history (steps : List MonitorStep) :
    (sampleTotals 0 steps).length = steps.countP MonitorStep.isTick ∧
      (Monitor.init.run steps).tpsSli.length = min (steps.countP MonitorStep.isTick) 2 ∧
      (Monitor.init.run steps).tpsSli
        = (sampleTotals 0 steps).drop ((sampleTotals 0 steps).length - 2) ∧
      (2 ≤ steps.countP MonitorStep.isTick →
        (Monitor.init.run steps).tpsSli
          = [(sampleTotals 0 steps).getD (steps.countP MonitorStep.isTick - 2) 0,
             (sampleTotals 0 steps).getD (steps.countP MonitorStep.isTick - 1) 0]) ∧
      (∀ pre post, steps = pre ++ MonitorStep.tick :: post →
        (sampleTotals 0 steps).getD (pre.countP MonitorStep.isTick) 0
          = (Monitor.init.run pre).data.HandleLine) ∧
      (Monitor.init.run (hundredThenFifty ++ [.recv TypeHandleLine, .tick])).tpsSli
        = [150, 151] := by
  have hlen := sampleTotals_length steps 0
  have hrun : (Monitor.init.run steps).tpsSli = lastTwo (sampleTotals 0 steps) := by
    have := run_tpsSli steps Monitor.init (by simp [Monitor.init])
    simpa [Monitor.init] using this
  refine ⟨hlen, ?_, ?_, ?_, ?_, by decide!⟩
  · rw [hrun, lastTwo_length, hlen]
  · rw [hrun, lastTwo_eq_drop]
  · intro h2
    rw [hrun, lastTwo_two _ (by rw [hlen]; exact h2), hlen]
  · intro pre post hsteps
    have := sampleTotals_append pre (MonitorStep.tick :: post) Monitor.init
    simp only [Monitor.init] at this
    rw [hsteps, this]
    have hl : (sampleTotals 0 pre).length = pre.countP MonitorStep.isTick :=
      sampleTotals_length pre 0
    rw [List.getD_eq_getElem?_getD, ← hl, List.getElem?_append_right (le_refl _)]
    simp [sampleTotals, Monitor.init]

set_option maxRecDepth 1000000 in
/-- C10 (the code at the failing input). The text "abc" and a newline is appended in two
writes, "ab" first, and `Read` meets the end of the file in between: `Read` pushes the
single line "c", whereas the appended content holds the single line "abc". -/
theorem c10_partial_line_lost :
    Read splitAppend = ⟨[TypeHandleLine], [ascii "c"]⟩ ∧
      terminatedLines (ascii "ab" ++ ascii "c\n") = [ascii "abc"] := by
  refine ⟨by decide!, by decide!⟩

end MonitorLog
